import Mathlib

/-!
Verification development for the storage-and-index core of the bustub-style
database engine (buffer pool manager, LRU-K replacer, disk scheduler, B+Tree).

Each definition is a shallow embedding of the corresponding C++ function,
translated loop by loop; machine integers are modelled as `Nat` (no overflow
is relevant to any statement proved here), fallible paths return `Option`,
and the doubly linked intrusive lists of the source are modelled as Lean
lists of frame ids whose front corresponds to the front of the C++ list
(`PushFront` is `List.cons`; iterating `Back() .. Head()` is iterating the
reversed list).
-/

namespace LRUK

/-- Queue membership tag of a tracked frame, from `QueueType` in
`lru_k_replacer.h` (`None = 0, History, Cache`). -/
inductive QT where
  | qnone : QT
  | history : QT
  | cache : QT
deriving DecidableEq, Repr

/-- One tracked frame, from `LRUKNode` in `lru_k_replacer.h`: observed access
count `k_`, last access timestamp `last_visit_`, the `is_evictable_` flag and
the `queue_type_` tag.  The field `firstAccess` is a ghost annotation (not in
the source) recording the timestamp at which the node was pushed into the
history list; no operation ever reads it, it only serves to state the FIFO
ordering of the history list. -/
structure LRUKNode where
  k : Nat
  lastVisit : Nat
  isEvictable : Bool
  queue : QT
  firstAccess : Nat
deriving DecidableEq, Repr

/-- The replacer state, from `LRUKReplacer` in `lru_k_replacer.h`:
`node_store_` (a map from frame id to node), the two intrusive lists
(front of the Lean list = front of the C++ list), `current_timestamp_`
and `curr_size_`. -/
structure Replacer where
  store : Nat → Option LRUKNode
  history : List Nat
  cache : List Nat
  currTimestamp : Nat
  currSize : Nat

/-- A freshly constructed `LRUKReplacer` (all containers empty, counters 0). -/
def init : Replacer :=
  { store := fun _ => none, history := [], cache := [], currTimestamp := 0, currSize := 0 }

/-- Point update of `node_store_`. -/
def updStore (st : Nat → Option LRUKNode) (f : Nat) (n : LRUKNode) : Nat → Option LRUKNode :=
  fun g => if g = f then some n else st g

/-- `LRUKReplacer::RecordAccess` (lru_k_replacer.cpp:79-120): on an unseen
frame create a node with `k = 1` and push it to the front of the history
list; on a tracked node with `queue_type_ == None` re-enter the history list
with `k = 1`; otherwise increment `k` and, exactly when `k` reaches `K`,
move the node from the history list to the front of the cache list.  In all
cases `last_visit_` is then set to `current_timestamp_++` (lines 118-119).
The ghost `firstAccess` is set whenever the node is pushed into the history
list. -/
def recordAccess (K : Nat) (s : Replacer) (f : Nat) : Replacer :=
  let s1 :=
    match s.store f with
    | none =>
        { s with
          store := updStore s.store f
            { k := 1, lastVisit := 0, isEvictable := false, queue := .history,
              firstAccess := s.currTimestamp },
          history := f :: s.history }
    | some n =>
        if n.queue = QT.qnone then
          { s with
            store := updStore s.store f
              { n with k := n.k + 1, queue := .history, firstAccess := s.currTimestamp },
            history := f :: s.history }
        else
          if n.k + 1 = K then
            { s with
              store := updStore s.store f { n with k := n.k + 1, queue := .cache },
              history := s.history.erase f,
              cache := f :: s.cache }
          else
            { s with store := updStore s.store f { n with k := n.k + 1 } }
  match s1.store f with
  | some n =>
      { s1 with
        store := updStore s1.store f { n with lastVisit := s.currTimestamp },
        currTimestamp := s.currTimestamp + 1 }
  | none => s1

/-- `LRUKReplacer::SetEvictable` (lru_k_replacer.cpp:122-145): if the frame
is untracked, a default node carrying the flag is inserted and the function
returns without touching `curr_size_`; otherwise the flag is flipped and
`curr_size_` adjusted when the flag actually changes. -/
def setEvictable (s : Replacer) (f : Nat) (flag : Bool) : Replacer :=
  match s.store f with
  | none =>
      { s with
        store := updStore s.store f
          { k := 0, lastVisit := 0, isEvictable := flag, queue := .qnone, firstAccess := 0 } }
  | some n =>
      let sz :=
        if n.isEvictable ≠ flag then
          (if flag then s.currSize + 1 else s.currSize - 1)
        else s.currSize
      { s with store := updStore s.store f { n with isEvictable := flag }, currSize := sz }

/-- Whether the node stored for `f` has its evictable flag set (the test
`node->is_evictable_` performed by the eviction scans). -/
def evictableAt (s : Replacer) (f : Nat) : Bool :=
  match s.store f with
  | some n => n.isEvictable
  | none => false

/-- `last_visit_` of the node stored for `f` (0 if untracked; the scans only
apply it to list members, which are always tracked in reachable states). -/
def lastVisitAt (s : Replacer) (f : Nat) : Nat :=
  match s.store f with
  | some n => n.lastVisit
  | none => 0

/-- The cache-list scan of `LRUKReplacer::Evict` (lru_k_replacer.cpp:49-59):
walk the cache list from `Back()` towards the head keeping the evictable
node with the strictly smallest `last_visit_`.  The `size_t` sentinel
`min_timestamp = -1` ("no candidate yet") is modelled as `none`. -/
def cacheScan (s : Replacer) : List Nat → Option Nat → Option Nat
  | [], best => best
  | f :: rest, best =>
      if evictableAt s f then
        match best with
        | none => cacheScan s rest (some f)
        | some g =>
            if lastVisitAt s f < lastVisitAt s g then cacheScan s rest (some f)
            else cacheScan s rest best
      else cacheScan s rest best

/-- The victim of the cache list: scan from the back (oldest insertion) to
the front. -/
def cacheVictim (s : Replacer) : Option Nat :=
  cacheScan s s.cache.reverse none

/-- Resetting the victim node after a successful eviction
(lru_k_replacer.cpp:69-75): `k_ = 0`, not evictable, `last_visit_ = 0`,
unlinked, `queue_type_ = None`, and `--curr_size_`.  The `node_store_`
entry itself is kept. -/
def resetVictim (s : Replacer) (f : Nat) : Replacer :=
  match s.store f with
  | some n =>
      { s with
        store := updStore s.store f
          { n with k := 0, isEvictable := false, lastVisit := 0, queue := .qnone },
        currSize := s.currSize - 1 }
  | none => s

/-- `LRUKReplacer::Evict` (lru_k_replacer.cpp:27-77): `none` when
`curr_size_ == 0`; otherwise the first evictable node of the history list
scanned from `Back()` (oldest first); otherwise the evictable cache node
with the smallest `last_visit_`; `none` when neither scan finds a victim.
Returns the victim (if any) together with the state after the erase and
reset. -/
def evict (s : Replacer) : Option Nat × Replacer :=
  if s.currSize = 0 then (none, s)
  else
    match s.history.reverse.find? (evictableAt s) with
    | some f => (some f, resetVictim { s with history := s.history.erase f } f)
    | none =>
        match cacheVictim s with
        | some f => (some f, resetVictim { s with cache := s.cache.erase f } f)
        | none => (none, s)

/-- `LRUKReplacer::Remove` (lru_k_replacer.cpp:147-163): no-op when the
frame is untracked; otherwise unlink the node from its list, erase the
`node_store_` entry and decrement `curr_size_`.  (The source asserts the
node is evictable and linked; the erase itself is unconditional.) -/
def remove (s : Replacer) (f : Nat) : Replacer :=
  match s.store f with
  | none => s
  | some n =>
      let s1 :=
        if n.queue = QT.cache then { s with cache := s.cache.erase f }
        else if n.queue = QT.history then { s with history := s.history.erase f }
        else s
      { s1 with
        store := fun g => if g = f then none else s.store g,
        currSize := s.currSize - 1 }

/-- One call of the public mutator interface exercised by claims over call
sequences. -/
inductive ROp where
  | record : Nat → ROp
  | setEvict : Nat → Bool → ROp
deriving DecidableEq, Repr

/-- Apply one call. -/
def applyROp (K : Nat) (s : Replacer) : ROp → Replacer
  | .record f => recordAccess K s f
  | .setEvict f b => setEvictable s f b

/-- State of a replacer after a sequence of `RecordAccess`/`SetEvictable`
calls starting from a freshly constructed replacer with parameter `K`. -/
def run (K : Nat) (ops : List ROp) : Replacer :=
  ops.foldl (applyROp K) init

/-- A call sequence is well-formed when every `SetEvictable` call targets a
frame that is already tracked in `node_store_` at the time of the call. -/
def wfSeq (K : Nat) : Replacer → List ROp → Bool
  | _, [] => true
  | s, .record f :: t => wfSeq K (recordAccess K s f) t
  | s, .setEvict f b :: t => (s.store f).isSome && wfSeq K (setEvictable s f b) t

end LRUK

namespace LRUK

theorem updStore_self (st : Nat → Option LRUKNode) (f : Nat) (n : LRUKNode) :
    updStore st f n f = some n := by
  simp [updStore]

theorem updStore_ne (st : Nat → Option LRUKNode) (f : Nat) (n : LRUKNode) {g : Nat}
    (h : g ≠ f) : updStore st f n g = st g := by
  simp [updStore, h]

theorem updStore_updStore (st : Nat → Option LRUKNode) (f : Nat) (n m : LRUKNode) :
    updStore (updStore st f n) f m = updStore st f m := by
  funext g
  by_cases h : g = f <;> simp [updStore, h]

/-- `RecordAccess` on an untracked frame (lru_k_replacer.cpp:83-89 plus the
final timestamp update). -/
theorem recordAccess_untracked {s : Replacer} {f : Nat} (K : Nat) (h : s.store f = none) :
    recordAccess K s f =
      { s with
        store := updStore s.store f
          { k := 1, lastVisit := s.currTimestamp, isEvictable := false, queue := .history,
            firstAccess := s.currTimestamp },
        history := f :: s.history,
        currTimestamp := s.currTimestamp + 1 } := by
  simp [recordAccess, h, updStore_self, updStore_updStore]

/-- `RecordAccess` on a tracked node with `queue_type_ == None`
(lru_k_replacer.cpp:93-99 plus the final timestamp update). -/
theorem recordAccess_qnone {s : Replacer} {f : Nat} {n : LRUKNode} (K : Nat)
    (h : s.store f = some n) (hq : n.queue = QT.qnone) :
    recordAccess K s f =
      { s with
        store := updStore s.store f
          { n with k := n.k + 1, lastVisit := s.currTimestamp, queue := .history,
                   firstAccess := s.currTimestamp },
        history := f :: s.history,
        currTimestamp := s.currTimestamp + 1 } := by
  simp [recordAccess, h, hq, updStore_self, updStore_updStore]

/-- `RecordAccess` on a tracked listed node whose count reaches `K`: the node
moves from the history list to the front of the cache list
(lru_k_replacer.cpp:102-109 plus the final timestamp update). -/
theorem recordAccess_toCache {s : Replacer} {f : Nat} {n : LRUKNode} {K : Nat}
    (h : s.store f = some n) (hq : n.queue ≠ QT.qnone) (hk : n.k + 1 = K) :
    recordAccess K s f =
      { s with
        store := updStore s.store f
          { n with k := n.k + 1, lastVisit := s.currTimestamp, queue := .cache },
        history := s.history.erase f,
        cache := f :: s.cache,
        currTimestamp := s.currTimestamp + 1 } := by
  simp [recordAccess, h, hq, hk, updStore_self, updStore_updStore]

/-- `RecordAccess` on a tracked listed node whose count does not reach `K`
(lru_k_replacer.cpp:102 plus the final timestamp update). -/
theorem recordAccess_stay {s : Replacer} {f : Nat} {n : LRUKNode} {K : Nat}
    (h : s.store f = some n) (hq : n.queue ≠ QT.qnone) (hk : n.k + 1 ≠ K) :
    recordAccess K s f =
      { s with
        store := updStore s.store f { n with k := n.k + 1, lastVisit := s.currTimestamp },
        currTimestamp := s.currTimestamp + 1 } := by
  simp [recordAccess, h, hq, hk, updStore_self, updStore_updStore]

/-- `SetEvictable` on a tracked frame (lru_k_replacer.cpp:136-144). -/
theorem setEvictable_tracked {s : Replacer} {f : Nat} {n : LRUKNode} (flag : Bool)
    (h : s.store f = some n) :
    setEvictable s f flag =
      { s with
        store := updStore s.store f { n with isEvictable := flag },
        currSize :=
          if n.isEvictable ≠ flag then (if flag then s.currSize + 1 else s.currSize - 1)
          else s.currSize } := by
  simp [setEvictable, h]

end LRUK

namespace LRUK

/-- The ghost `firstAccess` timestamp of the node stored for `f`. -/
def firstAccessAt (s : Replacer) (f : Nat) : Nat :=
  match s.store f with
  | some n => n.firstAccess
  | none => 0

/-- The number of evictable entries currently linked into the two lists. -/
def evCount (s : Replacer) : Nat :=
  s.history.countP (evictableAt s) + s.cache.countP (evictableAt s)

/-- The internal consistency invariant of a replacer state reachable by a
well-formed call sequence: the lists are duplicate-free and mirror the
`queue_type_` tags of the store, every tracked node is linked (no `None`
node), history nodes have fewer than `K` recorded accesses and cache nodes
at least `K`, `curr_size_` counts the evictable linked entries, and the
history list is ordered newest-first by its (ghost) first-access time. -/
structure Inv (K : Nat) (s : Replacer) : Prop where
  histNodup : s.history.Nodup
  cacheNodup : s.cache.Nodup
  histMem : ∀ f, f ∈ s.history ↔ ∃ n, s.store f = some n ∧ n.queue = QT.history
  cacheMem : ∀ f, f ∈ s.cache ↔ ∃ n, s.store f = some n ∧ n.queue = QT.cache
  noNone : ∀ f n, s.store f = some n → n.queue ≠ QT.qnone
  histK : ∀ f n, s.store f = some n → n.queue = QT.history → n.k < K
  cacheK : ∀ f n, s.store f = some n → n.queue = QT.cache → K ≤ n.k
  sizeEq : s.currSize = evCount s
  faBound : ∀ f n, s.store f = some n → n.firstAccess < s.currTimestamp
  histSorted : s.history.Pairwise (fun a b => firstAccessAt s b < firstAccessAt s a)

theorem inv_init (K : Nat) : Inv K init := by
  refine ⟨?_, ?_, ?_, ?_, ?_, ?_, ?_, ?_, ?_, ?_⟩ <;>
    simp [init, evCount, evictableAt]

end LRUK

namespace LRUK

theorem not_mem_history_of_none {K : Nat} {s : Replacer} (hI : Inv K s) {f : Nat}
    (h : s.store f = none) : f ∉ s.history := by
  intro hf
  rcases (hI.histMem f).1 hf with ⟨n, hn, _⟩
  rw [h] at hn
  cases hn

theorem not_mem_cache_of_none {K : Nat} {s : Replacer} (hI : Inv K s) {f : Nat}
    (h : s.store f = none) : f ∉ s.cache := by
  intro hf
  rcases (hI.cacheMem f).1 hf with ⟨n, hn, _⟩
  rw [h] at hn
  cases hn


theorem updStore_apply (st : Nat → Option LRUKNode) (f : Nat) (n : LRUKNode) (g : Nat) :
    updStore st f n g = if g = f then some n else st g := rfl

theorem evictableAt_congr {s t : Replacer} {g : Nat} (h : t.store g = s.store g) :
    evictableAt t g = evictableAt s g := by
  simp [evictableAt, h]

theorem firstAccessAt_congr {s t : Replacer} {g : Nat} (h : t.store g = s.store g) :
    firstAccessAt t g = firstAccessAt s g := by
  simp [firstAccessAt, h]

theorem inv_record_untracked {K : Nat} {s : Replacer} {f : Nat} (hK : 2 ≤ K) (hI : Inv K s)
    (h : s.store f = none) : Inv K (recordAccess K s f) := by
  rw [recordAccess_untracked K h]
  have hfm : f ∉ s.history := not_mem_history_of_none hI h
  have hfc : f ∉ s.cache := not_mem_cache_of_none hI h
  have hmemne : ∀ g ∈ s.history, g ≠ f := fun g hg hgf => hfm (hgf ▸ hg)
  have hmemnec : ∀ g ∈ s.cache, g ≠ f := fun g hg hgf => hfc (hgf ▸ hg)
  refine ⟨?_, ?_, ?_, ?_, ?_, ?_, ?_, ?_, ?_, ?_⟩
  · exact List.nodup_cons.mpr ⟨hfm, hI.histNodup⟩
  · exact hI.cacheNodup
  · intro g
    by_cases hg : g = f
    · subst hg
      simp [updStore_apply]
    · simp only [List.mem_cons, hg, false_or, updStore_apply, if_neg hg]
      exact hI.histMem g
  · intro g
    by_cases hg : g = f
    · subst hg
      simp only [updStore_apply, if_pos rfl]
      constructor
      · intro hgc
        exact absurd hgc hfc
      · rintro ⟨m, hm, hq⟩
        cases hm
        cases hq
    · simp only [updStore_apply, if_neg hg]
      exact hI.cacheMem g
  · intro g m hm
    simp only [updStore_apply] at hm
    by_cases hg : g = f
    · rw [if_pos hg] at hm
      cases hm
      simp
    · rw [if_neg hg] at hm
      exact hI.noNone g m hm
  · intro g m hm hq
    simp only [updStore_apply] at hm
    by_cases hg : g = f
    · rw [if_pos hg] at hm
      cases hm
      simpa using hK
    · rw [if_neg hg] at hm
      exact hI.histK g m hm hq
  · intro g m hm hq
    simp only [updStore_apply] at hm
    by_cases hg : g = f
    · rw [if_pos hg] at hm
      cases hm
      cases hq
    · rw [if_neg hg] at hm
      exact hI.cacheK g m hm hq
  · dsimp only [evCount]
    rw [List.countP_cons]
    have h1 : ∀ p ∈ s.history,
        (evictableAt
          { s with
            store := updStore s.store f
              { k := 1, lastVisit := s.currTimestamp, isEvictable := false, queue := .history,
                firstAccess := s.currTimestamp },
            history := f :: s.history,
            currTimestamp := s.currTimestamp + 1 } p = true) ↔ evictableAt s p = true := by
      intro p hp
      simp [evictableAt, updStore_apply, hmemne p hp]
    have h2 : ∀ p ∈ s.cache,
        (evictableAt
          { s with
            store := updStore s.store f
              { k := 1, lastVisit := s.currTimestamp, isEvictable := false, queue := .history,
                firstAccess := s.currTimestamp },
            history := f :: s.history,
            currTimestamp := s.currTimestamp + 1 } p = true) ↔ evictableAt s p = true := by
      intro p hp
      simp [evictableAt, updStore_apply, hmemnec p hp]
    rw [List.countP_congr h1, List.countP_congr h2]
    have h3 : evictableAt
        { s with
          store := updStore s.store f
            { k := 1, lastVisit := s.currTimestamp, isEvictable := false, queue := .history,
              firstAccess := s.currTimestamp },
          history := f :: s.history,
          currTimestamp := s.currTimestamp + 1 } f = false := by
      simp [evictableAt, updStore_apply]
    rw [h3]
    simpa [evCount] using hI.sizeEq
  · intro g m hm
    simp only [updStore_apply] at hm
    by_cases hg : g = f
    · rw [if_pos hg] at hm
      cases hm
      simp
    · rw [if_neg hg] at hm
      have := hI.faBound g m hm
      simp
      omega
  · refine List.pairwise_cons.mpr ⟨?_, ?_⟩
    · intro g hg
      rcases (hI.histMem g).1 hg with ⟨m, hm, _⟩
      have hb := hI.faBound g m hm
      simp [firstAccessAt, updStore_apply, hmemne g hg, hm]
      omega
    · refine hI.histSorted.imp_of_mem fun {a b} ha hb hr => ?_
      simpa [firstAccessAt, updStore_apply, hmemne a ha, hmemne b hb] using hr

end LRUK

namespace LRUK

theorem inv_record_toCache {K : Nat} {s : Replacer} {f : Nat} {n : LRUKNode} (hI : Inv K s)
    (h : s.store f = some n) (hq : n.queue ≠ QT.qnone) (hk : n.k + 1 = K) :
    Inv K (recordAccess K s f) := by
  have hT := recordAccess_toCache h hq hk
  have hqh : n.queue = QT.history := by
    cases hqn : n.queue
    · exact absurd hqn hq
    · rfl
    · exfalso
      have := hI.cacheK f n h hqn
      omega
  have hfhist : f ∈ s.history := (hI.histMem f).2 ⟨n, h, hqh⟩
  have hfcache : f ∉ s.cache := by
    intro hc
    rcases (hI.cacheMem f).1 hc with ⟨m, hm, hmq⟩
    rw [h] at hm
    cases hm
    rw [hqh] at hmq
    cases hmq
  have hstore : (recordAccess K s f).store =
      updStore s.store f { n with k := n.k + 1, lastVisit := s.currTimestamp, queue := .cache } := by
    rw [hT]
  have hhist : (recordAccess K s f).history = s.history.erase f := by rw [hT]
  have hcache : (recordAccess K s f).cache = f :: s.cache := by rw [hT]
  have hts : (recordAccess K s f).currTimestamp = s.currTimestamp + 1 := by rw [hT]
  have hsz : (recordAccess K s f).currSize = s.currSize := by rw [hT]
  have hsf : (recordAccess K s f).store f =
      some { n with k := n.k + 1, lastVisit := s.currTimestamp, queue := .cache } := by
    rw [hstore, updStore_self]
  have hsg : ∀ g, g ≠ f → (recordAccess K s f).store g = s.store g := fun g hg => by
    rw [hstore, updStore_ne _ _ _ hg]
  have hev : evictableAt (recordAccess K s f) = evictableAt s := by
    funext g
    by_cases hg : g = f
    · subst hg
      simp [evictableAt, hsf, h]
    · simp [evictableAt, hsg g hg]
  have hfa : ∀ g, firstAccessAt (recordAccess K s f) g = firstAccessAt s g := by
    intro g
    by_cases hg : g = f
    · subst hg
      simp [firstAccessAt, hsf, h]
    · simp [firstAccessAt, hsg g hg]
  refine ⟨?_, ?_, ?_, ?_, ?_, ?_, ?_, ?_, ?_, ?_⟩
  · rw [hhist]
    exact hI.histNodup.erase f
  · rw [hcache]
    exact List.nodup_cons.mpr ⟨hfcache, hI.cacheNodup⟩
  · intro g
    rw [hhist, hI.histNodup.mem_erase_iff]
    by_cases hg : g = f
    · subst hg
      simp [hsf]
    · rw [hsg g hg]
      simp [hg, hI.histMem g]
  · intro g
    rw [hcache]
    by_cases hg : g = f
    · subst hg
      simp [hsf]
    · rw [hsg g hg]
      simp [hg, hI.cacheMem g]
  · intro g m hm
    by_cases hg : g = f
    · subst hg
      rw [hsf] at hm
      cases hm
      simp
    · rw [hsg g hg] at hm
      exact hI.noNone g m hm
  · intro g m hm hmq
    by_cases hg : g = f
    · subst hg
      rw [hsf] at hm
      cases hm
      cases hmq
    · rw [hsg g hg] at hm
      exact hI.histK g m hm hmq
  · intro g m hm hmq
    by_cases hg : g = f
    · subst hg
      rw [hsf] at hm
      cases hm
      simp
      omega
    · rw [hsg g hg] at hm
      exact hI.cacheK g m hm hmq
  · rw [hsz]
    dsimp only [evCount]
    rw [hhist, hcache, hev, List.countP_cons]
    have hperm := (List.perm_cons_erase hfhist).countP_eq (evictableAt s)
    rw [List.countP_cons] at hperm
    have := hI.sizeEq
    dsimp only [evCount] at this
    omega
  · intro g m hm
    rw [hts]
    by_cases hg : g = f
    · subst hg
      rw [hsf] at hm
      cases hm
      have := hI.faBound g n h
      simp
      omega
    · rw [hsg g hg] at hm
      have := hI.faBound g m hm
      omega
  · rw [hhist]
    have hrel : (fun a b => firstAccessAt (recordAccess K s f) b < firstAccessAt (recordAccess K s f) a) =
        (fun a b => firstAccessAt s b < firstAccessAt s a) := by
      funext a b
      rw [hfa, hfa]
    rw [hrel]
    exact List.Pairwise.sublist (List.erase_sublist f s.history) hI.histSorted

theorem inv_record_stay {K : Nat} {s : Replacer} {f : Nat} {n : LRUKNode} (hI : Inv K s)
    (h : s.store f = some n) (hq : n.queue ≠ QT.qnone) (hk : n.k + 1 ≠ K) :
    Inv K (recordAccess K s f) := by
  have hT := recordAccess_stay h hq hk
  have hstore : (recordAccess K s f).store =
      updStore s.store f { n with k := n.k + 1, lastVisit := s.currTimestamp } := by
    rw [hT]
  have hhist : (recordAccess K s f).history = s.history := by rw [hT]
  have hcache : (recordAccess K s f).cache = s.cache := by rw [hT]
  have hts : (recordAccess K s f).currTimestamp = s.currTimestamp + 1 := by rw [hT]
  have hsz : (recordAccess K s f).currSize = s.currSize := by rw [hT]
  have hsf : (recordAccess K s f).store f = some { n with k := n.k + 1, lastVisit := s.currTimestamp } := by
    rw [hstore, updStore_self]
  have hsg : ∀ g, g ≠ f → (recordAccess K s f).store g = s.store g := fun g hg => by
    rw [hstore, updStore_ne _ _ _ hg]
  have hev : evictableAt (recordAccess K s f) = evictableAt s := by
    funext g
    by_cases hg : g = f
    · subst hg
      simp [evictableAt, hsf, h]
    · simp [evictableAt, hsg g hg]
  have hfa : ∀ g, firstAccessAt (recordAccess K s f) g = firstAccessAt s g := by
    intro g
    by_cases hg : g = f
    · subst hg
      simp [firstAccessAt, hsf, h]
    · simp [firstAccessAt, hsg g hg]
  refine ⟨?_, ?_, ?_, ?_, ?_, ?_, ?_, ?_, ?_, ?_⟩
  · rw [hhist]
    exact hI.histNodup
  · rw [hcache]
    exact hI.cacheNodup
  · intro g
    rw [hhist]
    by_cases hg : g = f
    · subst hg
      rw [hsf]
      simpa using hI.histMem g |>.trans (by simp [h])
    · rw [hsg g hg]
      exact hI.histMem g
  · intro g
    rw [hcache]
    by_cases hg : g = f
    · subst hg
      rw [hsf]
      simpa using hI.cacheMem g |>.trans (by simp [h])
    · rw [hsg g hg]
      exact hI.cacheMem g
  · intro g m hm
    by_cases hg : g = f
    · subst hg
      rw [hsf] at hm
      cases hm
      simpa using hI.noNone g n h
    · rw [hsg g hg] at hm
      exact hI.noNone g m hm
  · intro g m hm hmq
    by_cases hg : g = f
    · subst hg
      rw [hsf] at hm
      cases hm
      have := hI.histK g n h (by simpa using hmq)
      simp
      omega
    · rw [hsg g hg] at hm
      exact hI.histK g m hm hmq
  · intro g m hm hmq
    by_cases hg : g = f
    · subst hg
      rw [hsf] at hm
      cases hm
      have := hI.cacheK g n h (by simpa using hmq)
      simp
      omega
    · rw [hsg g hg] at hm
      exact hI.cacheK g m hm hmq
  · rw [hsz]
    dsimp only [evCount]
    rw [hhist, hcache, hev]
    exact hI.sizeEq
  · intro g m hm
    rw [hts]
    by_cases hg : g = f
    · subst hg
      rw [hsf] at hm
      cases hm
      have := hI.faBound g n h
      simp
      omega
    · rw [hsg g hg] at hm
      have := hI.faBound g m hm
      omega
  · rw [hhist]
    have hrel : (fun a b => firstAccessAt (recordAccess K s f) b < firstAccessAt (recordAccess K s f) a) =
        (fun a b => firstAccessAt s b < firstAccessAt s a) := by
      funext a b
      rw [hfa, hfa]
    rw [hrel]
    exact hI.histSorted

end LRUK

namespace LRUK

theorem inv_setEvictable {K : Nat} {s : Replacer} {f : Nat} {n : LRUKNode} (hI : Inv K s)
    (h : s.store f = some n) (flag : Bool) : Inv K (setEvictable s f flag) := by
  have hT := setEvictable_tracked flag h
  have hstore : (setEvictable s f flag).store =
      updStore s.store f { n with isEvictable := flag } := by rw [hT]
  have hhist : (setEvictable s f flag).history = s.history := by rw [hT]
  have hcache : (setEvictable s f flag).cache = s.cache := by rw [hT]
  have hts : (setEvictable s f flag).currTimestamp = s.currTimestamp := by rw [hT]
  have hsz : (setEvictable s f flag).currSize =
      (if n.isEvictable ≠ flag then (if flag then s.currSize + 1 else s.currSize - 1)
       else s.currSize) := by rw [hT]
  have hsf : (setEvictable s f flag).store f = some { n with isEvictable := flag } := by
    rw [hstore, updStore_self]
  have hsg : ∀ g, g ≠ f → (setEvictable s f flag).store g = s.store g := fun g hg => by
    rw [hstore, updStore_ne _ _ _ hg]
  have hfa : ∀ g, firstAccessAt (setEvictable s f flag) g = firstAccessAt s g := by
    intro g
    by_cases hg : g = f
    · subst hg
      simp [firstAccessAt, hsf, h]
    · simp [firstAccessAt, hsg g hg]
  have hevg : ∀ g, g ≠ f → evictableAt (setEvictable s f flag) g = evictableAt s g := by
    intro g hg
    simp [evictableAt, hsg g hg]
  have hevf : evictableAt (setEvictable s f flag) f = flag := by
    simp [evictableAt, hsf]
  have hevsf : evictableAt s f = n.isEvictable := by
    simp [evictableAt, h]
  refine ⟨?_, ?_, ?_, ?_, ?_, ?_, ?_, ?_, ?_, ?_⟩
  · rw [hhist]
    exact hI.histNodup
  · rw [hcache]
    exact hI.cacheNodup
  · intro g
    rw [hhist]
    by_cases hg : g = f
    · subst hg
      rw [hsf]
      simpa using hI.histMem g |>.trans (by simp [h])
    · rw [hsg g hg]
      exact hI.histMem g
  · intro g
    rw [hcache]
    by_cases hg : g = f
    · subst hg
      rw [hsf]
      simpa using hI.cacheMem g |>.trans (by simp [h])
    · rw [hsg g hg]
      exact hI.cacheMem g
  · intro g m hm
    by_cases hg : g = f
    · subst hg
      rw [hsf] at hm
      cases hm
      simpa using hI.noNone g n h
    · rw [hsg g hg] at hm
      exact hI.noNone g m hm
  · intro g m hm hmq
    by_cases hg : g = f
    · subst hg
      rw [hsf] at hm
      cases hm
      simpa using hI.histK g n h (by simpa using hmq)
    · rw [hsg g hg] at hm
      exact hI.histK g m hm hmq
  · intro g m hm hmq
    by_cases hg : g = f
    · subst hg
      rw [hsf] at hm
      cases hm
      simpa using hI.cacheK g n h (by simpa using hmq)
    · rw [hsg g hg] at hm
      exact hI.cacheK g m hm hmq
  · rw [hsz]
    dsimp only [evCount]
    rw [hhist, hcache]
    have hsize := hI.sizeEq
    dsimp only [evCount] at hsize
    cases hqn : n.queue with
    | qnone => exact absurd hqn (hI.noNone f n h)
    | history =>
        have hfhist : f ∈ s.history := (hI.histMem f).2 ⟨n, h, hqn⟩
        have hfcache : f ∉ s.cache := by
          intro hc
          rcases (hI.cacheMem f).1 hc with ⟨m, hm, hmq⟩
          rw [h] at hm
          cases hm
          rw [hqn] at hmq
          cases hmq
        have hc2 : List.countP (evictableAt (setEvictable s f flag)) s.cache =
            List.countP (evictableAt s) s.cache := by
          refine List.countP_congr fun p hp => ?_
          rw [hevg p (fun hpf => hfcache (hpf ▸ hp))]
        have herasem : ∀ p ∈ s.history.erase f, p ≠ f := by
          intro p hp
          exact (hI.histNodup.mem_erase_iff.1 hp).1
        have hceq : List.countP (evictableAt (setEvictable s f flag)) (s.history.erase f) =
            List.countP (evictableAt s) (s.history.erase f) := by
          refine List.countP_congr fun p hp => ?_
          rw [hevg p (herasem p hp)]
        have hp1 := (List.perm_cons_erase hfhist).countP_eq
          (evictableAt (setEvictable s f flag))
        have hp2 := (List.perm_cons_erase hfhist).countP_eq (evictableAt s)
        rw [List.countP_cons] at hp1 hp2
        rw [hp1, hc2, hceq, hevf]
        rw [hp2, hevsf] at hsize
        cases hnb : n.isEvictable <;> cases flag <;> simp_all <;> omega
    | cache =>
        have hfcache : f ∈ s.cache := (hI.cacheMem f).2 ⟨n, h, hqn⟩
        have hfhist : f ∉ s.history := by
          intro hc
          rcases (hI.histMem f).1 hc with ⟨m, hm, hmq⟩
          rw [h] at hm
          cases hm
          rw [hqn] at hmq
          cases hmq
        have hc2 : List.countP (evictableAt (setEvictable s f flag)) s.history =
            List.countP (evictableAt s) s.history := by
          refine List.countP_congr fun p hp => ?_
          rw [hevg p (fun hpf => hfhist (hpf ▸ hp))]
        have herasem : ∀ p ∈ s.cache.erase f, p ≠ f := by
          intro p hp
          exact (hI.cacheNodup.mem_erase_iff.1 hp).1
        have hceq : List.countP (evictableAt (setEvictable s f flag)) (s.cache.erase f) =
            List.countP (evictableAt s) (s.cache.erase f) := by
          refine List.countP_congr fun p hp => ?_
          rw [hevg p (herasem p hp)]
        have hp1 := (List.perm_cons_erase hfcache).countP_eq
          (evictableAt (setEvictable s f flag))
        have hp2 := (List.perm_cons_erase hfcache).countP_eq (evictableAt s)
        rw [List.countP_cons] at hp1 hp2
        rw [hp1, hc2, hceq, hevf]
        rw [hp2, hevsf] at hsize
        cases hnb : n.isEvictable <;> cases flag <;> simp_all <;> omega
  · intro g m hm
    rw [hts]
    by_cases hg : g = f
    · subst hg
      rw [hsf] at hm
      cases hm
      simpa using hI.faBound g n h
    · rw [hsg g hg] at hm
      exact hI.faBound g m hm
  · rw [hhist]
    have hrel : (fun a b => firstAccessAt (setEvictable s f flag) b <
        firstAccessAt (setEvictable s f flag) a) =
        (fun a b => firstAccessAt s b < firstAccessAt s a) := by
      funext a b
      rw [hfa, hfa]
    rw [hrel]
    exact hI.histSorted

theorem inv_record {K : Nat} {s : Replacer} (hK : 2 ≤ K) (hI : Inv K s) (f : Nat) :
    Inv K (recordAccess K s f) := by
  cases h : s.store f with
  | none => exact inv_record_untracked hK hI h
  | some n =>
      have hq := hI.noNone f n h
      by_cases hk : n.k + 1 = K
      · exact inv_record_toCache hI h hq hk
      · exact inv_record_stay hI h hq hk

theorem inv_foldl {K : Nat} (hK : 2 ≤ K) :
    ∀ (ops : List ROp) {s : Replacer}, Inv K s → wfSeq K s ops = true →
      Inv K (ops.foldl (applyROp K) s)
  | [], _, hI, _ => hI
  | .record f :: t, s, hI, hwf => by
      have hwf' : wfSeq K (recordAccess K s f) t = true := by
        simpa [wfSeq] using hwf
      simpa [applyROp] using inv_foldl hK t (inv_record hK hI f) hwf'
  | .setEvict f b :: t, s, hI, hwf => by
      have hsome : (s.store f).isSome := by
        have := hwf
        simp [wfSeq] at this
        exact this.1
      obtain ⟨n, hn⟩ := Option.isSome_iff_exists.1 hsome
      have hwf' : wfSeq K (setEvictable s f b) t = true := by
        have := hwf
        simp [wfSeq] at this
        exact this.2
      simpa [applyROp] using inv_foldl hK t (inv_setEvictable hI hn b) hwf'

theorem inv_run {K : Nat} {ops : List ROp} (hK : 2 ≤ K) (hwf : wfSeq K init ops = true) :
    Inv K (run K ops) :=
  inv_foldl hK ops (inv_init K) hwf

end LRUK

namespace LRUK

theorem find?_min_fa {p : Nat → Bool} {fa : Nat → Nat} :
    ∀ {l : List Nat}, l.Pairwise (fun a b => fa a < fa b) → ∀ {f : Nat},
      l.find? p = some f → ∀ g ∈ l, p g = true → fa f ≤ fa g := by
  intro l
  induction l with
  | nil =>
      intro _ f hf
      cases hf
  | cons a t ih =>
      intro hp f hf g hg hpg
      rw [List.find?_cons] at hf
      cases hpa : p a with
      | true =>
          rw [hpa] at hf
          cases hf
          rcases List.mem_cons.1 hg with hga | hgt
          · subst hga
            exact le_refl _
          · exact le_of_lt ((List.pairwise_cons.1 hp).1 g hgt)
      | false =>
          rw [hpa] at hf
          rcases List.mem_cons.1 hg with hga | hgt
          · subst hga
            rw [hpg] at hpa
            cases hpa
          · exact ih (List.pairwise_cons.1 hp).2 hf g hgt hpg

theorem cacheScan_cons_false {s : Replacer} {a : Nat} (t : List Nat) (best : Option Nat)
    (h : evictableAt s a = false) : cacheScan s (a :: t) best = cacheScan s t best := by
  simp [cacheScan, h]

theorem cacheScan_cons_true_none {s : Replacer} {a : Nat} (t : List Nat)
    (h : evictableAt s a = true) : cacheScan s (a :: t) none = cacheScan s t (some a) := by
  simp [cacheScan, h]

theorem cacheScan_cons_true_some {s : Replacer} {a g : Nat} (t : List Nat)
    (h : evictableAt s a = true) :
    cacheScan s (a :: t) (some g) =
      (if lastVisitAt s a < lastVisitAt s g then cacheScan s t (some a)
       else cacheScan s t (some g)) := by
  simp [cacheScan, h]

theorem cacheScan_none (s : Replacer) :
    ∀ (l : List Nat) (best : Option Nat), cacheScan s l best = none →
      best = none ∧ ∀ g ∈ l, evictableAt s g = false
  | [], best, h => by
      simp only [cacheScan] at h
      exact ⟨h, by simp⟩
  | a :: t, best, h => by
      cases hpa : evictableAt s a with
      | true =>
          cases best with
          | none =>
              rw [cacheScan_cons_true_none t hpa] at h
              rcases cacheScan_none s t (some a) h with ⟨hb, _⟩
              cases hb
          | some g =>
              rw [cacheScan_cons_true_some t hpa] at h
              by_cases hlt : lastVisitAt s a < lastVisitAt s g
              · rw [if_pos hlt] at h
                rcases cacheScan_none s t (some a) h with ⟨hb, _⟩
                cases hb
              · rw [if_neg hlt] at h
                rcases cacheScan_none s t (some g) h with ⟨hb, _⟩
                cases hb
      | false =>
          rw [cacheScan_cons_false t best hpa] at h
          rcases cacheScan_none s t best h with ⟨hb, hall⟩
          refine ⟨hb, ?_⟩
          intro g hg
          rcases List.mem_cons.1 hg with hga | hgt
          · subst hga
            exact hpa
          · exact hall g hgt

theorem cacheScan_min (s : Replacer) :
    ∀ (l : List Nat) (best : Option Nat) (f : Nat), cacheScan s l best = some f →
      (best = some f ∨ (f ∈ l ∧ evictableAt s f = true)) ∧
      (∀ g ∈ l, evictableAt s g = true → lastVisitAt s f ≤ lastVisitAt s g) ∧
      (∀ b, best = some b → lastVisitAt s f ≤ lastVisitAt s b)
  | [], best, f, h => by
      simp only [cacheScan] at h
      refine ⟨Or.inl h, by simp, ?_⟩
      intro b hb
      rw [h] at hb
      cases hb
      exact le_refl _
  | a :: t, best, f, h => by
      cases hpa : evictableAt s a with
      | true =>
          cases best with
          | none =>
              rw [cacheScan_cons_true_none t hpa] at h
              rcases cacheScan_min s t (some a) f h with ⟨hmem, hmin, hbest⟩
              have hfa : lastVisitAt s f ≤ lastVisitAt s a := hbest a rfl
              refine ⟨?_, ?_, ?_⟩
              · rcases hmem with hfa' | ⟨hft, hev⟩
                · cases hfa'
                  exact Or.inr ⟨List.mem_cons_self _ _, hpa⟩
                · exact Or.inr ⟨List.mem_cons_of_mem _ hft, hev⟩
              · intro g hg hev
                rcases List.mem_cons.1 hg with hga | hgt
                · subst hga
                  exact hfa
                · exact hmin g hgt hev
              · intro b hb
                cases hb
          | some g0 =>
              rw [cacheScan_cons_true_some t hpa] at h
              by_cases hlt : lastVisitAt s a < lastVisitAt s g0
              · rw [if_pos hlt] at h
                rcases cacheScan_min s t (some a) f h with ⟨hmem, hmin, hbest⟩
                have hfa : lastVisitAt s f ≤ lastVisitAt s a := hbest a rfl
                refine ⟨?_, ?_, ?_⟩
                · rcases hmem with hfa' | ⟨hft, hev⟩
                  · cases hfa'
                    exact Or.inr ⟨List.mem_cons_self _ _, hpa⟩
                  · exact Or.inr ⟨List.mem_cons_of_mem _ hft, hev⟩
                · intro g hg hev
                  rcases List.mem_cons.1 hg with hga | hgt
                  · subst hga
                    exact hfa
                  · exact hmin g hgt hev
                · intro b hb
                  cases hb
                  exact le_trans hfa (le_of_lt hlt)
              · rw [if_neg hlt] at h
                rcases cacheScan_min s t (some g0) f h with ⟨hmem, hmin, hbest⟩
                have hfg0 : lastVisitAt s f ≤ lastVisitAt s g0 := hbest g0 rfl
                refine ⟨?_, ?_, ?_⟩
                · rcases hmem with hfa' | ⟨hft, hev⟩
                  · exact Or.inl hfa'
                  · exact Or.inr ⟨List.mem_cons_of_mem _ hft, hev⟩
                · intro g hg hev
                  rcases List.mem_cons.1 hg with hga | hgt
                  · subst hga
                    exact le_trans hfg0 (le_of_not_lt hlt)
                  · exact hmin g hgt hev
                · intro b hb
                  cases hb
                  exact hfg0
      | false =>
          rw [cacheScan_cons_false t best hpa] at h
          rcases cacheScan_min s t best f h with ⟨hmem, hmin, hbest⟩
          refine ⟨?_, ?_, hbest⟩
          · rcases hmem with hfa' | ⟨hft, hev⟩
            · exact Or.inl hfa'
            · exact Or.inr ⟨List.mem_cons_of_mem _ hft, hev⟩
          · intro g hg hev
            rcases List.mem_cons.1 hg with hga | hgt
            · subst hga
              rw [hev] at hpa
              cases hpa
            · exact hmin g hgt hev

end LRUK

namespace LRUK

/-- The eviction contract of claim C1, restricted to the state `s` it is
evaluated on: `curr_size_` counts the evictable entries; `Evict` returns
`none` exactly when that count is zero; the history list holds exactly the
tracked frames with fewer than `K` recorded accesses and the cache list
those with at least `K`; and a successful eviction yields an evictable
frame that is the history entry with the oldest first access when the
history list has an evictable entry, and otherwise the cache entry with
the smallest last-access timestamp. -/
def EvictContract (K : Nat) (s : Replacer) : Prop :=
  s.currSize = evCount s ∧
  ((evict s).1 = none ↔ s.currSize = 0) ∧
  (∀ f n, s.store f = some n → ((f ∈ s.history ↔ n.k < K) ∧ (f ∈ s.cache ↔ K ≤ n.k))) ∧
  (∀ f, (evict s).1 = some f →
    evictableAt s f = true ∧
    ((∃ g ∈ s.history, evictableAt s g = true) →
      f ∈ s.history ∧ ∀ g ∈ s.history, evictableAt s g = true →
        firstAccessAt s f ≤ firstAccessAt s g) ∧
    ((∀ g ∈ s.history, evictableAt s g = false) →
      f ∈ s.cache ∧ ∀ g ∈ s.cache, evictableAt s g = true →
        lastVisitAt s f ≤ lastVisitAt s g))

theorem memK_of_inv {K : Nat} {s : Replacer} (hI : Inv K s) :
    ∀ f n, s.store f = some n → ((f ∈ s.history ↔ n.k < K) ∧ (f ∈ s.cache ↔ K ≤ n.k)) := by
  intro f n hn
  have hq := hI.noNone f n hn
  constructor
  · constructor
    · intro hf
      rcases (hI.histMem f).1 hf with ⟨m, hm, hmq⟩
      rw [hn] at hm
      cases hm
      exact hI.histK f n hn hmq
    · intro hk
      cases hqn : n.queue with
      | qnone => exact absurd hqn hq
      | history => exact (hI.histMem f).2 ⟨n, hn, hqn⟩
      | cache =>
          have := hI.cacheK f n hn hqn
          omega
  · constructor
    · intro hf
      rcases (hI.cacheMem f).1 hf with ⟨m, hm, hmq⟩
      rw [hn] at hm
      cases hm
      exact hI.cacheK f n hn hmq
    · intro hk
      cases hqn : n.queue with
      | qnone => exact absurd hqn hq
      | history =>
          have := hI.histK f n hn hqn
          omega
      | cache => exact (hI.cacheMem f).2 ⟨n, hn, hqn⟩

theorem evictContract_of_inv {K : Nat} {s : Replacer} (hI : Inv K s) : EvictContract K s := by
  refine ⟨hI.sizeEq, ?_, memK_of_inv hI, ?_⟩
  · by_cases hsz : s.currSize = 0
    · simp [evict, hsz]
    · simp only [evict, if_neg hsz]
      cases hfind : s.history.reverse.find? (evictableAt s) with
      | some f0 => simpa using hsz
      | none =>
          cases hcs : cacheVictim s with
          | some f0 => simpa using hsz
          | none =>
              exfalso
              have hh : ∀ g ∈ s.history, evictableAt s g = false := by
                intro g hg
                have := List.find?_eq_none.1 hfind g (List.mem_reverse.2 hg)
                simpa using this
              have hc : ∀ g ∈ s.cache, evictableAt s g = false := by
                have := (cacheScan_none s _ _ hcs).2
                intro g hg
                exact this g (List.mem_reverse.2 hg)
              have h1 : s.history.countP (evictableAt s) = 0 :=
                List.countP_eq_zero.2 (by
                  intro g hg
                  simp [hh g hg])
              have h2 : s.cache.countP (evictableAt s) = 0 :=
                List.countP_eq_zero.2 (by
                  intro g hg
                  simp [hc g hg])
              have := hI.sizeEq
              dsimp only [evCount] at this
              omega
  · intro f hf
    by_cases hsz : s.currSize = 0
    · simp [evict, hsz] at hf
    · simp only [evict, if_neg hsz] at hf
      cases hfind : s.history.reverse.find? (evictableAt s) with
      | some f0 =>
          rw [hfind] at hf
          simp only at hf
          injection hf with hff
          rw [← hff]
          have hev : evictableAt s f0 = true := List.find?_some hfind
          have hmem : f0 ∈ s.history := List.mem_reverse.1 (List.mem_of_find?_eq_some hfind)
          refine ⟨hev, ?_, ?_⟩
          · intro _
            refine ⟨hmem, ?_⟩
            intro g hg hgev
            have hrev : (s.history.reverse).Pairwise
                (fun a b => firstAccessAt s a < firstAccessAt s b) :=
              List.pairwise_reverse.mpr hI.histSorted
            exact find?_min_fa hrev hfind g (List.mem_reverse.2 hg) hgev
          · intro hall
            have := hall f0 hmem
            rw [hev] at this
            cases this
      | none =>
          rw [hfind] at hf
          simp only at hf
          cases hcs : cacheVictim s with
          | some f0 =>
              rw [hcs] at hf
              simp only at hf
              injection hf with hff
              rw [← hff]
              rcases cacheScan_min s _ _ _ hcs with ⟨hmem, hmin, _⟩
              rcases hmem with hmem | ⟨hmemr, hev⟩
              · cases hmem
              have hmemc : f0 ∈ s.cache := List.mem_reverse.1 hmemr
              refine ⟨hev, ?_, ?_⟩
              · rintro ⟨g, hg, hgev⟩
                have := List.find?_eq_none.1 hfind g (List.mem_reverse.2 hg)
                rw [hgev] at this
                simp at this
              · intro _
                refine ⟨hmemc, ?_⟩
                intro g hg hgev
                exact hmin g (List.mem_reverse.2 hg) hgev
          | none =>
              rw [hcs] at hf
              simp at hf

end LRUK

namespace LRUK

theorem resetVictim_some {s : Replacer} {f : Nat} {n : LRUKNode} (h : s.store f = some n) :
    resetVictim s f =
      { s with
        store := updStore s.store f
          { n with k := 0, isEvictable := false, lastVisit := 0, queue := .qnone },
        currSize := s.currSize - 1 } := by
  simp [resetVictim, h]

/-- The contract of claim C9 as amended: a successful eviction resets the
victim node (access count, timestamp, flag and queue tag all cleared),
unlinks it from both lists and decrements `curr_size_`; the `node_store_`
entry survives in a state that makes a later `RecordAccess` behave exactly
as on a never-seen frame. -/
def EvictResetContract (K : Nat) (s : Replacer) : Prop :=
  ∀ f s', evict s = (some f, s') →
    (∃ n, s'.store f = some n ∧ n.k = 0 ∧ n.lastVisit = 0 ∧ n.isEvictable = false ∧
      n.queue = QT.qnone) ∧
    f ∉ s'.history ∧ f ∉ s'.cache ∧ s'.currSize = s.currSize - 1 ∧
    recordAccess K s' f =
      recordAccess K { s' with store := fun g => if g = f then none else s'.store g } f

theorem record_reset_eq_record_fresh {K : Nat} {t : Replacer} {f : Nat} {n : LRUKNode}
    (h : t.store f = some n) (hk : n.k = 0) (hq : n.queue = QT.qnone)
    (hev : n.isEvictable = false) :
    recordAccess K t f =
      recordAccess K { t with store := fun g => if g = f then none else t.store g } f := by
  have h2 : ({ t with store := fun g => if g = f then none else t.store g } :
      Replacer).store f = none := by
    simp
  rw [recordAccess_qnone K h hq, recordAccess_untracked K h2]
  simp only
  congr 1
  funext g
  by_cases hg : g = f
  · subst hg
    simp [updStore, hk, hev]
  · simp [updStore, hg]

theorem evictResetContract_of_inv {K : Nat} {s : Replacer} (hI : Inv K s) :
    EvictResetContract K s := by
  intro f s' hev
  by_cases hsz : s.currSize = 0
  · simp [evict, hsz] at hev
  · simp only [evict, if_neg hsz] at hev
    cases hfind : s.history.reverse.find? (evictableAt s) with
    | some f0 =>
        rw [hfind] at hev
        simp only [Prod.mk.injEq] at hev
        obtain ⟨hff, hs'⟩ := hev
        injection hff with hff
        subst hs'
        subst hff
        have hmem : f0 ∈ s.history := List.mem_reverse.1 (List.mem_of_find?_eq_some hfind)
        have hevf : evictableAt s f0 = true := List.find?_some hfind
        obtain ⟨n, hsf⟩ : ∃ n, s.store f0 = some n := by
          cases hsf : s.store f0 with
          | none => simp [evictableAt, hsf] at hevf
          | some n => exact ⟨n, rfl⟩
        have hs1f : ({ s with history := s.history.erase f0 } : Replacer).store f0 = s.store f0 :=
          rfl
        rw [resetVictim_some (hs1f.trans hsf)]
        have hqh : n.queue = QT.history := by
          rcases (hI.histMem f0).1 hmem with ⟨m, hm, hmq⟩
          rw [hsf] at hm
          cases hm
          exact hmq
        refine ⟨⟨_, updStore_self _ _ _, rfl, rfl, rfl, rfl⟩, ?_, ?_, rfl, ?_⟩
        · intro hc
          exact absurd ((hI.histNodup.mem_erase_iff).1 hc).1 (by simp)
        · intro hc
          rcases (hI.cacheMem f0).1 hc with ⟨m, hm, hmq⟩
          rw [hsf] at hm
          cases hm
          rw [hqh] at hmq
          cases hmq
        · exact record_reset_eq_record_fresh (updStore_self _ _ _) rfl rfl rfl
    | none =>
        rw [hfind] at hev
        simp only at hev
        cases hcs : cacheVictim s with
        | some f0 =>
            rw [hcs] at hev
            simp only [Prod.mk.injEq] at hev
            obtain ⟨hff, hs'⟩ := hev
            injection hff with hff
            subst hs'
            subst hff
            rcases cacheScan_min s _ _ _ hcs with ⟨hmem, _, _⟩
            rcases hmem with hmem | ⟨hmemr, hevf⟩
            · cases hmem
            have hmemc : f0 ∈ s.cache := List.mem_reverse.1 hmemr
            obtain ⟨n, hsf⟩ : ∃ n, s.store f0 = some n := by
              cases hsf : s.store f0 with
              | none => simp [evictableAt, hsf] at hevf
              | some n => exact ⟨n, rfl⟩
            have hs1f : ({ s with cache := s.cache.erase f0 } : Replacer).store f0 = s.store f0 :=
              rfl
            rw [resetVictim_some (hs1f.trans hsf)]
            have hqc : n.queue = QT.cache := by
              rcases (hI.cacheMem f0).1 hmemc with ⟨m, hm, hmq⟩
              rw [hsf] at hm
              cases hm
              exact hmq
            refine ⟨⟨_, updStore_self _ _ _, rfl, rfl, rfl, rfl⟩, ?_, ?_, rfl, ?_⟩
            · intro hc
              rcases (hI.histMem f0).1 hc with ⟨m, hm, hmq⟩
              rw [hsf] at hm
              cases hm
              rw [hqc] at hmq
              cases hmq
            · intro hc
              exact absurd ((hI.cacheNodup.mem_erase_iff).1 hc).1 (by simp)
            · exact record_reset_eq_record_fresh (updStore_self _ _ _) rfl rfl rfl
        | none =>
            rw [hcs] at hev
            simp at hev

end LRUK

/-- C1 (amended): for a replacer with parameter `K ≥ 2` and any sequence of
`RecordAccess`/`SetEvictable` calls in which every `SetEvictable` targets an
already-tracked frame, `Evict()` returns `none` exactly when the evictable
count is zero, and otherwise returns the evictable frame with maximum
backward K-distance: the first evictable entry of the history list (frames
with fewer than `K` accesses, FIFO by first access, oldest first), or, when
the history list has no evictable entry, the evictable cache entry (frames
with at least `K` accesses) with the smallest last-access timestamp. -/
theorem lruk_evict_max_backward_kdistance (K : Nat) (ops : List LRUK.ROp) (hK : 2 ≤ K)
    (hwf : LRUK.wfSeq K LRUK.init ops = true) :
    LRUK.EvictContract K (LRUK.run K ops) :=
  LRUK.evictContract_of_inv (LRUK.inv_run hK hwf)

/-- Witness for C1: the contract evaluated on a concrete well-formed
sequence (frame 0 stays in the history list, frame 1 is promoted to the
cache list after its second access). -/
theorem lruk_evict_max_backward_kdistance_witness :
    (2 ≤ 2 ∧ LRUK.wfSeq 2 LRUK.init
      [LRUK.ROp.record 0, LRUK.ROp.setEvict 0 true, LRUK.ROp.record 1,
       LRUK.ROp.setEvict 1 true, LRUK.ROp.record 1] = true) ∧
    LRUK.EvictContract 2 (LRUK.run 2
      [LRUK.ROp.record 0, LRUK.ROp.setEvict 0 true, LRUK.ROp.record 1,
       LRUK.ROp.setEvict 1 true, LRUK.ROp.record 1]) :=
  ⟨⟨by decide, by decide⟩,
    lruk_evict_max_backward_kdistance 2
      [LRUK.ROp.record 0, LRUK.ROp.setEvict 0 true, LRUK.ROp.record 1,
       LRUK.ROp.setEvict 1 true, LRUK.ROp.record 1] (by decide) (by decide)⟩

/-- C1 counterexample: after `SetEvictable(0, true)` on a never-seen frame
followed by `RecordAccess(0)`, frame 0 sits in the history list with its
evictable flag set — the evictable count in the claim's sense is 1 — yet
`Evict()` returns `none`, because the `SetEvictable` path for unseen frames
never incremented `curr_size_`. -/
theorem lruk_evict_counterexample :
    LRUK.evictableAt (LRUK.run 2 [LRUK.ROp.setEvict 0 true, LRUK.ROp.record 0]) 0 = true ∧
    0 ∈ (LRUK.run 2 [LRUK.ROp.setEvict 0 true, LRUK.ROp.record 0]).history ∧
    (LRUK.evict (LRUK.run 2 [LRUK.ROp.setEvict 0 true, LRUK.ROp.record 0])).1 = none := by
  decide

/-- C8: `SetEvictable(0, true)` on a freshly constructed replacer (frame 0
never passed to `RecordAccess`, flag initially false) creates the tracked
entry with the evictable flag set but leaves `Size()` at 0, contradicting
the claim (and the header's documentation) that the count is incremented
on every false-to-true transition. -/
theorem lruk_setEvictable_unseen_size_bug :
    (LRUK.setEvictable LRUK.init 0 true).currSize = 0 ∧
    LRUK.evictableAt (LRUK.setEvictable LRUK.init 0 true) 0 = true ∧
    (LRUK.setEvictable LRUK.init 0 true).store 0 =
      some { k := 0, lastVisit := 0, isEvictable := true, queue := LRUK.QT.qnone,
             firstAccess := 0 } := by
  decide

/-- C9 (amended): on any reachable well-formed state, a successful `Evict()`
returning `f` resets `f`'s node (access count, timestamp, flag, queue tag),
unlinks it from both lists and decrements the evictable count by one; the
`node_store_` entry itself persists, in a state on which a later
`RecordAccess` behaves exactly as on a never-seen frame. -/
theorem lruk_evict_reset_contract (K : Nat) (ops : List LRUK.ROp) (hK : 2 ≤ K)
    (hwf : LRUK.wfSeq K LRUK.init ops = true) :
    LRUK.EvictResetContract K (LRUK.run K ops) :=
  LRUK.evictResetContract_of_inv (LRUK.inv_run hK hwf)

/-- Witness for C9: the reset contract evaluated on a concrete run in which
`Evict()` succeeds. -/
theorem lruk_evict_reset_contract_witness :
    (2 ≤ 2 ∧ LRUK.wfSeq 2 LRUK.init
      [LRUK.ROp.record 0, LRUK.ROp.setEvict 0 true] = true) ∧
    LRUK.EvictResetContract 2 (LRUK.run 2 [LRUK.ROp.record 0, LRUK.ROp.setEvict 0 true]) :=
  ⟨⟨by decide, by decide⟩,
    lruk_evict_reset_contract 2 [LRUK.ROp.record 0, LRUK.ROp.setEvict 0 true]
      (by decide) (by decide)⟩

/-- C9 counterexample: after evicting frame 0 its `node_store_` entry is
still present, and `SetEvictable(0, true)` on the evicted frame bumps the
count to 1, whereas the same call on a truly never-seen frame leaves the
count at 0 — so an evicted frame is *not* treated exactly like a never-seen
frame by `SetEvictable`, and the entry is not removed. -/
theorem lruk_evicted_not_like_unseen :
    (LRUK.evict (LRUK.run 2 [LRUK.ROp.record 0, LRUK.ROp.setEvict 0 true])).1 = some 0 ∧
    ((LRUK.evict (LRUK.run 2 [LRUK.ROp.record 0, LRUK.ROp.setEvict 0 true])).2.store 0).isSome
      = true ∧
    (LRUK.setEvictable
      (LRUK.evict (LRUK.run 2 [LRUK.ROp.record 0, LRUK.ROp.setEvict 0 true])).2 0
      true).currSize = 1 ∧
    (LRUK.setEvictable LRUK.init 0 true).currSize = 0 := by
  decide

namespace BPM

/-- One buffer frame's metadata, from `FrameHeader` in
`buffer_pool_manager.h` / `buffer_pool_manager.cpp`: pin count, dirty bit,
resident page id and the page bytes. -/
structure FrameHeader where
  pinCount : Nat
  isDirty : Bool
  pageId : Nat
  data : List Nat
deriving DecidableEq, Repr, Inhabited

/-- `FrameHeader::Reset` (buffer_pool_manager.cpp:56-61): zero the bytes,
clear the pin count, the dirty flag and the resident page id. -/
def FrameHeader.Reset (f : FrameHeader) : FrameHeader :=
  { f with data := f.data.map (fun _ => 0), pinCount := 0, isDirty := false, pageId := 0 }

/-- The buffer pool manager state, from `BufferPoolManager` in
`buffer_pool_manager.h`: the page table, the frame headers, the free frame
list and the replacer.  `diskPages` models the backing file contents and
`deallocated` the log of `DiskScheduler::DeallocatePage` calls issued. -/
structure BufferPoolManager where
  pageTable : Nat → Option Nat
  frames : List FrameHeader
  freeFrames : List Nat
  replacer : LRUK.Replacer
  diskPages : Nat → List Nat
  deallocated : List Nat

/-- `BufferPoolManager::DeletePage` (buffer_pool_manager.cpp:174-199): if
the page is not in the page table, return `true` immediately (nothing else
happens); if the resident frame is pinned, return `false`; otherwise call
`DeallocatePage`, remove the frame from the replacer, erase the page-table
entry, push the frame onto the free list and reset it. -/
def DeletePage (b : BufferPoolManager) (pid : Nat) : Bool × BufferPoolManager :=
  match b.pageTable pid with
  | none => (true, b)
  | some fid =>
      let frame := b.frames.getD fid default
      if frame.pinCount > 0 then (false, b)
      else
        (true,
          { b with
            deallocated := b.deallocated ++ [pid],
            replacer := LRUK.remove b.replacer fid,
            pageTable := fun q => if q = pid then none else b.pageTable q,
            freeFrames := b.freeFrames ++ [fid],
            frames := b.frames.set fid frame.Reset })

/-- `BufferPoolManager::FlushPage` (buffer_pool_manager.cpp:347-362): `false`
when the page is not in the page table; otherwise schedule a synchronous
write of the frame's bytes and block on it, then return `true`.  The source
does *not* clear `is_dirty_` (line 360 is commented out), so the frame
headers are returned untouched. -/
def FlushPage (b : BufferPoolManager) (pid : Nat) : Bool × BufferPoolManager :=
  match b.pageTable pid with
  | none => (false, b)
  | some fid =>
      let frame := b.frames.getD fid default
      (true, { b with diskPages := fun q => if q = pid then frame.data else b.diskPages q })

/-- A sample buffer pool: one frame holding dirty page 5 with pin count 0;
the replacer tracks frame 0 as evictable. -/
def sampleBPM : BufferPoolManager :=
  { pageTable := fun q => if q = 5 then some 0 else none,
    frames := [{ pinCount := 0, isDirty := true, pageId := 5, data := [7] }],
    freeFrames := [],
    replacer := LRUK.run 2 [LRUK.ROp.record 0, LRUK.ROp.setEvict 0 true],
    diskPages := fun _ => [],
    deallocated := [] }

/-- A sample buffer pool identical to `sampleBPM` but with the frame
pinned. -/
def sampleBPMPinned : BufferPoolManager :=
  { sampleBPM with frames := [{ pinCount := 2, isDirty := true, pageId := 5, data := [7] }] }

/-- The contract of claim C5 as amended: `DeletePage` returns `false`
exactly when the page is resident and pinned; on a resident unpinned page
it deallocates the page on disk, removes the frame from the replacer,
erases the page-table entry, returns the frame to the free list and resets
it; on a non-resident page it returns `true` without touching anything —
in particular without deallocating the page on disk. -/
def DeletePageContract (b : BufferPoolManager) (pid : Nat) : Prop :=
  (b.pageTable pid = none → DeletePage b pid = (true, b)) ∧
  (∀ fid, b.pageTable pid = some fid → 0 < (b.frames.getD fid default).pinCount →
    DeletePage b pid = (false, b)) ∧
  (∀ fid, b.pageTable pid = some fid → (b.frames.getD fid default).pinCount = 0 →
    (DeletePage b pid).1 = true ∧
    (DeletePage b pid).2.pageTable pid = none ∧
    (DeletePage b pid).2.deallocated = b.deallocated ++ [pid] ∧
    (DeletePage b pid).2.freeFrames = b.freeFrames ++ [fid] ∧
    (DeletePage b pid).2.replacer = LRUK.remove b.replacer fid ∧
    (DeletePage b pid).2.frames = b.frames.set fid (b.frames.getD fid default).Reset)

theorem deletePage_contract (b : BufferPoolManager) (pid : Nat) : DeletePageContract b pid := by
  refine ⟨?_, ?_, ?_⟩
  · intro h
    simp [DeletePage, h]
  · intro fid h hpin
    have hpos : 0 < (b.frames[fid]?.getD default).pinCount := by
      simpa [List.getD] using hpin
    simp [DeletePage, h, hpos]
  · intro fid h hpin
    have hz : (b.frames[fid]?.getD default).pinCount = 0 := by
      simpa [List.getD] using hpin
    simp [DeletePage, h, hz, List.getD]

end BPM

namespace Sched

/-- The per-frame I/O hand-off flags referenced by the worker loop
(`frame->write_back_done_`, `frame->has_read_done_`,
`frame->has_read_launched_`). -/
structure FrameFlags where
  writeBackDone : Bool
  hasReadDone : Bool
  hasReadLaunched : Bool
deriving DecidableEq, Repr

/-- A disk request as consumed by the worker thread
(`DiskRequest`): direction, page bytes, page id, and the optional frame
back-pointer. -/
structure DiskRequest where
  isWrite : Bool
  data : List Nat
  pageId : Nat
  frame : Option FrameFlags
deriving DecidableEq, Repr

/-- The observable outcome of the worker processing one request: the disk
operation performed against the disk manager, whether
`callback_.set_value(true)` was executed, and the frame flags afterwards. -/
structure WorkerOutcome where
  diskWrite : Option (Nat × List Nat)
  diskRead : Option Nat
  promiseSet : Bool
  frameAfter : Option FrameFlags
deriving DecidableEq, Repr

/-- One iteration of `DiskScheduler::StartWorkerThread`
(disk_scheduler.cpp:55-84): perform the read or write against the disk
manager; then, when a frame back-pointer is attached, set the frame's
hand-off flag and notify the condition variable, and only otherwise fulfil
the request's completion promise with `set_value(true)`. -/
def processRequest (r : DiskRequest) : WorkerOutcome :=
  if r.isWrite then
    match r.frame with
    | some fr =>
        { diskWrite := some (r.pageId, r.data), diskRead := none, promiseSet := false,
          frameAfter := some { fr with writeBackDone := true } }
    | none =>
        { diskWrite := some (r.pageId, r.data), diskRead := none, promiseSet := true,
          frameAfter := none }
  else
    match r.frame with
    | some fr =>
        { diskWrite := none, diskRead := some r.pageId, promiseSet := false,
          frameAfter := some { fr with hasReadDone := true } }
    | none =>
        { diskWrite := none, diskRead := some r.pageId, promiseSet := true,
          frameAfter := none }

end Sched

/-- C5 (amended): `DeletePage` returns `false` exactly when the page is
resident and pinned; on a resident unpinned page it deallocates the page on
disk, removes the frame from the replacer, erases the page-table entry,
returns the frame to the free list and resets it; on a non-resident page it
returns `true` immediately *without* deallocating the page on disk. -/
theorem bpm_deletePage_spec (b : BPM.BufferPoolManager) (pid : Nat) :
    BPM.DeletePageContract b pid :=
  BPM.deletePage_contract b pid

/-- Witness for C5: the contract evaluated on a pool with a resident
unpinned dirty page 5 (deleted), the same pool with the frame pinned
(refused), and a never-resident page 3 (true without deallocation). -/
theorem bpm_deletePage_spec_witness :
    BPM.DeletePageContract BPM.sampleBPM 5 ∧ BPM.DeletePageContract BPM.sampleBPMPinned 5 ∧
      BPM.DeletePageContract BPM.sampleBPM 3 :=
  ⟨bpm_deletePage_spec BPM.sampleBPM 5, bpm_deletePage_spec BPM.sampleBPMPinned 5,
    bpm_deletePage_spec BPM.sampleBPM 3⟩

/-- C5 counterexample: deleting never-resident page 3 returns `true` but
issues no `DeallocatePage` call — the page is *not* deallocated on disk,
contrary to the claim's "including when the page was never resident". -/
theorem bpm_deletePage_counterexample :
    BPM.sampleBPM.pageTable 3 = none ∧
    (BPM.DeletePage BPM.sampleBPM 3).1 = true ∧
    (BPM.DeletePage BPM.sampleBPM 3).2.deallocated = [] := by
  refine ⟨rfl, rfl, rfl⟩

/-- C6: `FlushPage` on resident dirty page 5 returns `true` and
synchronously writes the frame's bytes to disk, but leaves the frame's
`is_dirty` flag set (the clearing line is commented out in the source); on
a non-resident page it returns `false`. -/
theorem bpm_flushPage_keeps_dirty :
    (BPM.FlushPage BPM.sampleBPM 5).1 = true ∧
    (BPM.FlushPage BPM.sampleBPM 5).2.diskPages 5 = [7] ∧
    ((BPM.FlushPage BPM.sampleBPM 5).2.frames.getD 0 default).isDirty = true ∧
    (BPM.FlushPage BPM.sampleBPM 3).1 = false := by
  refine ⟨rfl, rfl, rfl, rfl⟩

/-- C7: the worker performs the disk write in both cases, but executes
`callback_.set_value(true)` only when no frame back-pointer is attached;
with a frame attached it sets `write_back_done_` and never fulfils the
promise — contrary to the claim that the completion promise fires in all
cases. -/
theorem sched_promise_only_without_frame :
    (Sched.processRequest
      { isWrite := true, data := [1], pageId := 0,
        frame := some { writeBackDone := false, hasReadDone := false,
                        hasReadLaunched := false } }).promiseSet = false ∧
    (Sched.processRequest
      { isWrite := true, data := [1], pageId := 0,
        frame := some { writeBackDone := false, hasReadDone := false,
                        hasReadLaunched := false } }).diskWrite = some (0, [1]) ∧
    (Sched.processRequest
      { isWrite := true, data := [1], pageId := 0, frame := none }).promiseSet = true ∧
    (Sched.processRequest
      { isWrite := false, data := [], pageId := 2,
        frame := some { writeBackDone := true, hasReadDone := false,
                        hasReadLaunched := true } }).promiseSet = false := by
  refine ⟨rfl, rfl, rfl, rfl⟩

namespace BPT

/-- A leaf page, from `BPlusTreeLeafPage` (b_plus_tree_leaf_page.h /
b_plus_tree_leaf_page.cpp).  The parallel arrays `key_array_[0..size)` and
`rid_array_[0..size)` are modelled as one list of key/value pairs (the
source always moves them in lockstep); `size` is the list length.  Keys are
`Nat` (the generic comparator instantiated on a linearly ordered key);
values are `Nat` stand-ins for RIDs.  `INVALID_PAGE_ID` is `-1`. -/
structure LeafPage where
  entries : List (Nat × Nat)
  maxSize : Nat
  nextPageId : Int
deriving DecidableEq, Repr, Inhabited

/-- The keys `key_array_[0..size)` of a leaf page. -/
def LeafPage.keys (p : LeafPage) : List Nat :=
  p.entries.map Prod.fst

/-- `BPlusTreeLeafPage::Init` (b_plus_tree_leaf_page.cpp:30-35): size 0,
given max size, `next_page_id_ = -1`. -/
def LeafPage.init (maxSize : Nat) : LeafPage :=
  { entries := [], maxSize := maxSize, nextPageId := -1 }

/-- Modelled from the spec: `IsFull` of a B+Tree page is not under `src/`
(it lives in the missing page header); per the spec's size rules the
maximum occupancy before a split is forced is `max_size` slots, so a page
is full when `size == max_size`. -/
def LeafPage.isFull (p : LeafPage) : Bool :=
  p.entries.length == p.maxSize

/-- `BPlusTreeLeafPage::InsertKeyValue` (b_plus_tree_leaf_page.cpp:78-103):
refuse when full; otherwise scan for the first position whose key is not
below the new key (the `pos` loop), shift the tail up one slot and write
the pair there. -/
def LeafPage.insertKeyValue (p : LeafPage) (key v : Nat) : Bool × LeafPage :=
  if p.isFull then (false, p)
  else
    (true,
      { p with
        entries := p.entries.takeWhile (fun e => e.1 < key) ++
          (key, v) :: p.entries.dropWhile (fun e => e.1 < key) })

/-- Modelled from the spec: `BPlusTreeLeafPage::SearchKeyIndex` is not under
`src/` (only its callers are).  Per the spec it locates the insertion
position of `key` in the sorted leaf: the index of the first key not less
than `key`, and `-1` when every key is smaller (in particular on an empty
page), which matches every use in `b_plus_tree.cpp` (duplicate check,
insertion position, `Begin(key)` start position). -/
def LeafPage.searchKeyIndex (p : LeafPage) (key : Nat) : Int :=
  let pos := (p.entries.takeWhile (fun e => e.1 < key)).length
  if pos = p.entries.length then -1 else (pos : Int)

/-- Modelled from the spec: `BPlusTreeLeafPage::InsertKeyValueByIndex` is
not under `src/`; per the spec (step 5 of Insert) it inserts the pair
in-place at the located position, shifting the tail up one slot. -/
def LeafPage.insertAt (p : LeafPage) (key v : Nat) (pos : Nat) : LeafPage :=
  { p with entries := p.entries.take pos ++ (key, v) :: p.entries.drop pos }

/-- `BPlusTreeLeafPage::DeleteKey` (b_plus_tree_leaf_page.cpp:152-179):
refuse (no scan at all) when the page is a non-root at minimum occupancy
`(max_size+1)/2`; otherwise look for the key and, when present, close the
gap; an absent key still returns `true`. -/
def LeafPage.deleteKey (p : LeafPage) (key : Nat) (isRoot : Bool) : Bool × LeafPage :=
  let minSize := (p.maxSize + 1) / 2
  if ¬isRoot ∧ p.entries.length ≤ minSize then (false, p)
  else
    match p.entries.findIdx? (fun e => e.1 == key) with
    | none => (true, p)
    | some pos => (true, { p with entries := p.entries.eraseIdx pos })

/-- `BPlusTreeLeafPage::CombinePage` (b_plus_tree_leaf_page.cpp:182-193):
append the absorbed page's entries, take over its `next_page_id_`, and
empty the absorbed page.  (The source asserts `this_size + other_size <=
max_size`; with assertions disabled the copy happens regardless, which the
model mirrors.) -/
def LeafPage.combinePage (p other : LeafPage) : LeafPage × LeafPage :=
  ({ p with entries := p.entries ++ other.entries, nextPageId := other.nextPageId },
   { other with entries := [] })

/-- Loop 1 of `BPlusTreeLeafPage::SplitLeafPage`
(b_plus_tree_leaf_page.cpp:121-124): walk both pages downward from the top
(`rem` is the source entries reversed, top first; `slots` is `right + 1`),
moving entries greater than the new key to the front of the accumulated
sibling contents `acc` (which is therefore in ascending order).  Returns
the remaining slot budget, the unconsumed reversed prefix and the
sibling contents. -/
def moveTopGT (key : Nat) : Nat → List (Nat × Nat) → List (Nat × Nat) →
    Nat × List (Nat × Nat) × List (Nat × Nat)
  | 0, rem, acc => (0, rem, acc)
  | r + 1, [], acc => (r + 1, [], acc)
  | r + 1, e :: rem, acc =>
      if key < e.1 then moveTopGT key r rem (e :: acc)
      else (r + 1, e :: rem, acc)

/-- Loop 2 of `SplitLeafPage` (b_plus_tree_leaf_page.cpp:130-133): copy the
remaining `r` slots unconditionally. -/
def moveTop : Nat → List (Nat × Nat) → List (Nat × Nat) →
    List (Nat × Nat) × List (Nat × Nat)
  | 0, rem, acc => (rem, acc)
  | _ + 1, [], acc => ([], acc)
  | r + 1, e :: rem, acc => moveTop r rem (e :: acc)

/-- Loop 4 of `SplitLeafPage` (b_plus_tree_leaf_page.cpp:143-148): shift the
top entries of the (reversed, top-first) left remainder up while they
exceed the new key, then write the new pair below them. -/
def insertTop (key v : Nat) : List (Nat × Nat) → List (Nat × Nat)
  | [] => [(key, v)]
  | e :: rem => if key < e.1 then e :: insertTop key v rem else (key, v) :: e :: rem

/-- `BPlusTreeLeafPage::SplitLeafPage` (b_plus_tree_leaf_page.cpp:106-149):
on a full page of `max_size` entries, keep `(max_size+1)/2` entries on this
page and give `(max_size+2)/2` (counting the new pair) to the empty sibling
`other`: loop 1 moves top entries greater than the key across; loop 2
places the key and tops up the sibling when slots remain; the phase-3 test
(`other.key[0] <= key`) decides whether the key already landed in the
sibling, and otherwise loop 4 shift-inserts it into this page. -/
def LeafPage.splitLeafPage (p other : LeafPage) (key v : Nat) : LeafPage × LeafPage :=
  let otherSize := (p.maxSize + 2) / 2
  let s1 := moveTopGT key otherSize (p.entries.reverse) []
  let s2 := if 0 < s1.1 then moveTop (s1.1 - 1) s1.2.1 ((key, v) :: s1.2.2)
            else (s1.2.1, s1.2.2)
  if (s2.2.headD (0, 0)).1 ≤ key then
    ({ p with entries := s2.1.reverse }, { other with entries := s2.2 })
  else
    ({ p with entries := (insertTop key v s2.1).reverse }, { other with entries := s2.2 })

end BPT

namespace BPT

/-- Ordered insertion of a pair into the entry list at the position found by
the linear scan of `InsertKeyValue` (all entries with smaller key first). -/
def insPair (key v : Nat) (l : List (Nat × Nat)) : List (Nat × Nat) :=
  l.takeWhile (fun e => e.1 < key) ++ (key, v) :: l.dropWhile (fun e => e.1 < key)

/-- Entry lists sorted strictly by key. -/
def sortedByKey (l : List (Nat × Nat)) : Prop :=
  l.Pairwise (fun a b => a.1 < b.1)

instance (l : List (Nat × Nat)) : Decidable (sortedByKey l) := by
  unfold sortedByKey
  infer_instance

theorem moveTopGT_exact (key : Nat) :
    ∀ (C rest acc : List (Nat × Nat)), (∀ e ∈ C, key < e.1) →
      moveTopGT key C.length (C ++ rest) acc = (0, rest, C.reverse ++ acc)
  | [], rest, acc, _ => by simp [moveTopGT]
  | c :: C, rest, acc, hgt => by
      have hc : key < c.1 := hgt c (List.mem_cons_self _ _)
      simp only [List.length_cons, List.cons_append, List.append_eq, moveTopGT, hc, if_pos]
      rw [moveTopGT_exact key C rest (c :: acc) (fun e he => hgt e (List.mem_cons_of_mem _ he))]
      simp

theorem moveTopGT_stop (key : Nat) :
    ∀ (C : List (Nat × Nat)) (r : Nat) (rest acc : List (Nat × Nat)),
      (∀ e ∈ C, key < e.1) → C.length < r →
      (rest = [] ∨ ∃ e rest', rest = e :: rest' ∧ ¬ key < e.1) →
      moveTopGT key r (C ++ rest) acc = (r - C.length, rest, C.reverse ++ acc)
  | [], r, rest, acc, _, hr, hrest => by
      obtain ⟨r', rfl⟩ : ∃ r', r = r' + 1 := ⟨r - 1, by omega⟩
      rcases hrest with rfl | ⟨e, rest', rfl, he⟩
      · simp [moveTopGT]
      · simp [moveTopGT, he]
  | c :: C, r, rest, acc, hgt, hr, hrest => by
      obtain ⟨r', rfl⟩ : ∃ r', r = r' + 1 := ⟨r - 1, by omega⟩
      have hc : key < c.1 := hgt c (List.mem_cons_self _ _)
      simp only [List.cons_append, List.append_eq, moveTopGT, hc, if_pos]
      rw [moveTopGT_stop key C r' rest (c :: acc)
        (fun e he => hgt e (List.mem_cons_of_mem _ he)) (by simpa using hr) hrest]
      simp only [List.length_cons, List.reverse_cons, List.append_assoc]
      have : r' - C.length = r' + 1 - (C.length + 1) := by omega
      rw [this]
      simp

theorem moveTop_exact :
    ∀ (C rest acc : List (Nat × Nat)), moveTop C.length (C ++ rest) acc = (rest, C.reverse ++ acc)
  | [], rest, acc => by simp [moveTop]
  | c :: C, rest, acc => by
      simp only [List.length_cons, List.cons_append, List.append_eq, moveTop]
      rw [moveTop_exact C rest (c :: acc)]
      simp

theorem insertTop_stop (key v : Nat) :
    ∀ (P Q : List (Nat × Nat)), (∀ e ∈ P, key < e.1) →
      (Q = [] ∨ ∃ e Q', Q = e :: Q' ∧ ¬ key < e.1) →
      insertTop key v (P ++ Q) = P ++ (key, v) :: Q
  | [], Q, _, hq => by
      rcases hq with rfl | ⟨e, Q', rfl, he⟩
      · simp [insertTop]
      · simp [insertTop, he]
  | p :: P, Q, hgt, hq => by
      have hp : key < p.1 := hgt p (List.mem_cons_self _ _)
      simp only [List.cons_append, List.append_eq, insertTop, hp, if_pos]
      rw [insertTop_stop key v P Q (fun e he => hgt e (List.mem_cons_of_mem _ he)) hq]

theorem all_lt_takeWhile (key : Nat) (l : List (Nat × Nat)) :
    ∀ e ∈ l.takeWhile (fun e => e.1 < key), e.1 < key := by
  intro e he
  simpa using List.mem_takeWhile_imp he

theorem all_gt_dropWhile (key : Nat) :
    ∀ (l : List (Nat × Nat)), sortedByKey l → key ∉ l.map Prod.fst →
      ∀ e ∈ l.dropWhile (fun e => e.1 < key), key < e.1
  | [], _, _ => by simp
  | a :: l, hs, hfresh => by
      by_cases ha : a.1 < key
      · rw [List.dropWhile_cons_of_pos (by simpa using ha)]
        exact all_gt_dropWhile key l hs.tail (by
          intro hmem
          exact hfresh (by simpa using Or.inr hmem))
      · rw [List.dropWhile_cons_of_neg (by simpa using ha)]
        intro e he
        rcases List.mem_cons.1 he with rfl | he
        · have : e.1 ≠ key := by
            intro hak
            exact hfresh (by simp [← hak])
          omega
        · have := (List.pairwise_cons.1 hs).1 e he
          omega

end BPT

namespace BPT

theorem splitLeafPage_take_drop (p other : LeafPage) (key v : Nat)
    (hfull : p.entries.length = p.maxSize)
    (hsorted : sortedByKey p.entries)
    (hfresh : key ∉ p.keys) :
    p.splitLeafPage other key v =
      ({ p with entries := (insPair key v p.entries).take ((p.maxSize + 1) / 2) },
       { other with entries := (insPair key v p.entries).drop ((p.maxSize + 1) / 2) }) := by
  have hA : ∀ e ∈ p.entries.takeWhile (fun e => e.1 < key), e.1 < key :=
    all_lt_takeWhile key p.entries
  have hB : ∀ e ∈ p.entries.dropWhile (fun e => e.1 < key), key < e.1 :=
    all_gt_dropWhile key p.entries hsorted (by simpa [LeafPage.keys] using hfresh)
  have hAB : p.entries.takeWhile (fun e => e.1 < key) ++
      p.entries.dropWhile (fun e => e.1 < key) = p.entries :=
    List.takeWhile_append_dropWhile _ _
  have hlen : (p.entries.takeWhile (fun e => e.1 < key)).length +
      (p.entries.dropWhile (fun e => e.1 < key)).length = p.maxSize := by
    rw [← hfull]
    conv_rhs => rw [← hAB]
    rw [List.length_append]
  have hrev : p.entries.reverse = (p.entries.dropWhile (fun e => e.1 < key)).reverse ++
      (p.entries.takeWhile (fun e => e.1 < key)).reverse := by
    conv_lhs => rw [← hAB]
    rw [List.reverse_append]
  have hstopA : (p.entries.takeWhile (fun e => e.1 < key)).reverse = [] ∨
      ∃ e rest', (p.entries.takeWhile (fun e => e.1 < key)).reverse = e :: rest' ∧
        ¬ key < e.1 := by
    cases hAr : (p.entries.takeWhile (fun e => e.1 < key)).reverse with
    | nil => exact Or.inl rfl
    | cons e rest' =>
        refine Or.inr ⟨e, rest', rfl, ?_⟩
        have he : e ∈ p.entries.takeWhile (fun e => e.1 < key) := by
          rw [← List.mem_reverse, hAr]
          exact List.mem_cons_self _ _
        have := hA e he
        omega
  by_cases hcase : (p.maxSize + 1) / 2 ≤ (p.entries.takeWhile (fun e => e.1 < key)).length
  · -- the new key lands on the sibling page
    have hblen : (p.entries.dropWhile (fun e => e.1 < key)).length < (p.maxSize + 2) / 2 := by
      omega
    have h1 : moveTopGT key ((p.maxSize + 2) / 2) (p.entries.reverse) [] =
        ((p.maxSize + 2) / 2 - (p.entries.dropWhile (fun e => e.1 < key)).length,
          (p.entries.takeWhile (fun e => e.1 < key)).reverse,
          p.entries.dropWhile (fun e => e.1 < key)) := by
      rw [hrev]
      have := moveTopGT_stop key (p.entries.dropWhile (fun e => e.1 < key)).reverse
        ((p.maxSize + 2) / 2) (p.entries.takeWhile (fun e => e.1 < key)).reverse []
        (fun e he => hB e (List.mem_reverse.1 he)) (by simpa using hblen) hstopA
      simpa using this
    have hpos : 0 < (p.maxSize + 2) / 2 -
        (p.entries.dropWhile (fun e => e.1 < key)).length := by omega
    have hAsplit : (p.entries.takeWhile (fun e => e.1 < key)).reverse =
        ((p.entries.takeWhile (fun e => e.1 < key)).drop ((p.maxSize + 1) / 2)).reverse ++
        ((p.entries.takeWhile (fun e => e.1 < key)).take ((p.maxSize + 1) / 2)).reverse := by
      conv_lhs => rw [← List.take_append_drop ((p.maxSize + 1) / 2)
        (p.entries.takeWhile (fun e => e.1 < key))]
      rw [List.reverse_append]
    have hbudget : (p.maxSize + 2) / 2 -
        (p.entries.dropWhile (fun e => e.1 < key)).length - 1 =
        (((p.entries.takeWhile (fun e => e.1 < key)).drop ((p.maxSize + 1) / 2)).reverse).length := by
      simp
      omega
    have h2 : moveTop ((p.maxSize + 2) / 2 -
          (p.entries.dropWhile (fun e => e.1 < key)).length - 1)
        ((p.entries.takeWhile (fun e => e.1 < key)).reverse)
        ((key, v) :: p.entries.dropWhile (fun e => e.1 < key)) =
        (((p.entries.takeWhile (fun e => e.1 < key)).take ((p.maxSize + 1) / 2)).reverse,
          (p.entries.takeWhile (fun e => e.1 < key)).drop ((p.maxSize + 1) / 2) ++
            (key, v) :: p.entries.dropWhile (fun e => e.1 < key)) := by
      rw [hbudget, hAsplit]
      have := moveTop_exact
        (((p.entries.takeWhile (fun e => e.1 < key)).drop ((p.maxSize + 1) / 2)).reverse)
        (((p.entries.takeWhile (fun e => e.1 < key)).take ((p.maxSize + 1) / 2)).reverse)
        ((key, v) :: p.entries.dropWhile (fun e => e.1 < key))
      simpa using this
    have hhead : (((p.entries.takeWhile (fun e => e.1 < key)).drop ((p.maxSize + 1) / 2) ++
        (key, v) :: p.entries.dropWhile (fun e => e.1 < key)).headD (0, 0)).1 ≤ key := by
      cases hAd : (p.entries.takeWhile (fun e => e.1 < key)).drop ((p.maxSize + 1) / 2) with
      | nil => simp
      | cons e rest =>
          have he : e ∈ p.entries.takeWhile (fun e => e.1 < key) := by
            have : e ∈ (p.entries.takeWhile (fun e => e.1 < key)).drop ((p.maxSize + 1) / 2) := by
              rw [hAd]
              exact List.mem_cons_self _ _
            exact List.mem_of_mem_drop this
          have := hA e he
          simp
          omega
    have htake : (insPair key v p.entries).take ((p.maxSize + 1) / 2) =
        (p.entries.takeWhile (fun e => e.1 < key)).take ((p.maxSize + 1) / 2) := by
      rw [insPair, List.take_append_eq_append_take]
      have : (p.maxSize + 1) / 2 -
          (p.entries.takeWhile (fun e => e.1 < key)).length = 0 := by omega
      rw [this]
      simp
    have hdrop : (insPair key v p.entries).drop ((p.maxSize + 1) / 2) =
        (p.entries.takeWhile (fun e => e.1 < key)).drop ((p.maxSize + 1) / 2) ++
          (key, v) :: p.entries.dropWhile (fun e => e.1 < key) := by
      rw [insPair, List.drop_append_eq_append_drop]
      have : (p.maxSize + 1) / 2 -
          (p.entries.takeWhile (fun e => e.1 < key)).length = 0 := by omega
      rw [this]
      simp
    rw [LeafPage.splitLeafPage, h1]
    simp only
    rw [if_pos hpos, h2]
    simp only
    rw [if_pos hhead, htake, hdrop]
    simp
  · -- the new key stays on this page
    have hblen : (p.maxSize + 2) / 2 ≤ (p.entries.dropWhile (fun e => e.1 < key)).length := by
      omega
    have hBsplit : (p.entries.dropWhile (fun e => e.1 < key)).reverse =
        ((p.entries.dropWhile (fun e => e.1 < key)).drop
            ((p.entries.dropWhile (fun e => e.1 < key)).length - (p.maxSize + 2) / 2)).reverse ++
        ((p.entries.dropWhile (fun e => e.1 < key)).take
            ((p.entries.dropWhile (fun e => e.1 < key)).length - (p.maxSize + 2) / 2)).reverse := by
      conv_lhs => rw [← List.take_append_drop
        ((p.entries.dropWhile (fun e => e.1 < key)).length - (p.maxSize + 2) / 2)
        (p.entries.dropWhile (fun e => e.1 < key))]
      rw [List.reverse_append]
    have hsuflen : (((p.entries.dropWhile (fun e => e.1 < key)).drop
        ((p.entries.dropWhile (fun e => e.1 < key)).length - (p.maxSize + 2) / 2)).reverse).length =
        (p.maxSize + 2) / 2 := by
      simp
      omega
    have h1 : moveTopGT key ((p.maxSize + 2) / 2) (p.entries.reverse) [] =
        (0,
          ((p.entries.dropWhile (fun e => e.1 < key)).take
              ((p.entries.dropWhile (fun e => e.1 < key)).length - (p.maxSize + 2) / 2)).reverse ++
            (p.entries.takeWhile (fun e => e.1 < key)).reverse,
          (p.entries.dropWhile (fun e => e.1 < key)).drop
            ((p.entries.dropWhile (fun e => e.1 < key)).length - (p.maxSize + 2) / 2)) := by
      have h := moveTopGT_exact key
        (((p.entries.dropWhile (fun e => e.1 < key)).drop
            ((p.entries.dropWhile (fun e => e.1 < key)).length - (p.maxSize + 2) / 2)).reverse)
        (((p.entries.dropWhile (fun e => e.1 < key)).take
            ((p.entries.dropWhile (fun e => e.1 < key)).length - (p.maxSize + 2) / 2)).reverse ++
          (p.entries.takeWhile (fun e => e.1 < key)).reverse)
        []
        (fun e he => hB e (List.mem_of_mem_drop (List.mem_reverse.1 he)))
      rw [hsuflen] at h
      rw [hrev, hBsplit, List.append_assoc, h]
      simp
    have hBsufne : (p.entries.dropWhile (fun e => e.1 < key)).drop
        ((p.entries.dropWhile (fun e => e.1 < key)).length - (p.maxSize + 2) / 2) ≠ [] := by
      intro hnil
      have := congrArg List.length hnil
      simp at this
      omega
    have hhead : ¬ ((((p.entries.dropWhile (fun e => e.1 < key)).drop
        ((p.entries.dropWhile (fun e => e.1 < key)).length - (p.maxSize + 2) / 2)).headD (0, 0)).1
          ≤ key) := by
      cases hBd : (p.entries.dropWhile (fun e => e.1 < key)).drop
          ((p.entries.dropWhile (fun e => e.1 < key)).length - (p.maxSize + 2) / 2) with
      | nil => exact absurd hBd hBsufne
      | cons e rest =>
          have he : e ∈ p.entries.dropWhile (fun e => e.1 < key) := by
            have : e ∈ (p.entries.dropWhile (fun e => e.1 < key)).drop
                ((p.entries.dropWhile (fun e => e.1 < key)).length - (p.maxSize + 2) / 2) := by
              rw [hBd]
              exact List.mem_cons_self _ _
            exact List.mem_of_mem_drop this
          have := hB e he
          simp
          omega
    have h4 : insertTop key v
        (((p.entries.dropWhile (fun e => e.1 < key)).take
            ((p.entries.dropWhile (fun e => e.1 < key)).length - (p.maxSize + 2) / 2)).reverse ++
          (p.entries.takeWhile (fun e => e.1 < key)).reverse) =
        ((p.entries.dropWhile (fun e => e.1 < key)).take
            ((p.entries.dropWhile (fun e => e.1 < key)).length - (p.maxSize + 2) / 2)).reverse ++
          (key, v) :: (p.entries.takeWhile (fun e => e.1 < key)).reverse := by
      refine insertTop_stop key v _ _ ?_ hstopA
      intro e he
      exact hB e (List.mem_of_mem_take (List.mem_reverse.1 he))
    have htake : (insPair key v p.entries).take ((p.maxSize + 1) / 2) =
        p.entries.takeWhile (fun e => e.1 < key) ++
          (key, v) :: (p.entries.dropWhile (fun e => e.1 < key)).take
            ((p.entries.dropWhile (fun e => e.1 < key)).length - (p.maxSize + 2) / 2) := by
      rw [insPair, List.take_append_eq_append_take]
      have h5 : ((p.maxSize + 1) / 2) - (p.entries.takeWhile (fun e => e.1 < key)).length =
          ((p.entries.dropWhile (fun e => e.1 < key)).length - (p.maxSize + 2) / 2) + 1 := by
        omega
      rw [h5]
      have h6 : (p.entries.takeWhile (fun e => e.1 < key)).take ((p.maxSize + 1) / 2) =
          p.entries.takeWhile (fun e => e.1 < key) :=
        List.take_of_length_le (by omega)
      rw [h6]
      simp
    have hdrop : (insPair key v p.entries).drop ((p.maxSize + 1) / 2) =
        (p.entries.dropWhile (fun e => e.1 < key)).drop
          ((p.entries.dropWhile (fun e => e.1 < key)).length - (p.maxSize + 2) / 2) := by
      rw [insPair, List.drop_append_eq_append_drop]
      have h5 : ((p.maxSize + 1) / 2) - (p.entries.takeWhile (fun e => e.1 < key)).length =
          ((p.entries.dropWhile (fun e => e.1 < key)).length - (p.maxSize + 2) / 2) + 1 := by
        omega
      rw [h5]
      have h6 : (p.entries.takeWhile (fun e => e.1 < key)).drop ((p.maxSize + 1) / 2) = [] :=
        List.drop_eq_nil_of_le (by omega)
      rw [h6]
      simp
    rw [LeafPage.splitLeafPage, h1]
    simp only [lt_self_iff_false, if_false]
    rw [if_neg hhead, htake, hdrop, h4]
    simp [List.reverse_append]

end BPT

namespace BPT

theorem sortedByKey_insPair (key v : Nat) (l : List (Nat × Nat)) (hs : sortedByKey l)
    (hfresh : key ∉ l.map Prod.fst) : sortedByKey (insPair key v l) := by
  rw [insPair, sortedByKey, List.pairwise_append]
  refine ⟨List.Pairwise.sublist (List.takeWhile_sublist _) hs, ?_, ?_⟩
  · rw [List.pairwise_cons]
    exact ⟨fun b hb => all_gt_dropWhile key l hs hfresh b hb,
      List.Pairwise.sublist (List.dropWhile_sublist _) hs⟩
  · intro a ha b hb
    have ha' := all_lt_takeWhile key l a ha
    rcases List.mem_cons.1 hb with rfl | hb
    · exact ha'
    · have := all_gt_dropWhile key l hs hfresh b hb
      omega

theorem sortedByKey_sublist {l₁ l₂ : List (Nat × Nat)} (h : l₁.Sublist l₂)
    (hs : sortedByKey l₂) : sortedByKey l₁ :=
  List.Pairwise.sublist h hs

/-- The full-leaf branch of `BPlusTree::Insert` (b_plus_tree.cpp:164-176):
allocate a sibling page id `newPageId`, `Init` the sibling with the leaf
max size, link `new_leaf.next = leaf.next` then `leaf.next = new_page_id`,
perform `SplitLeafPage`, and promote `separator = new_leaf.KeyAt(0)` with
the new page id as its value. -/
def splitLeafStep (leaf : LeafPage) (leafMax : Nat) (newPageId : Int) (key v : Nat) :
    (LeafPage × LeafPage) × (Nat × Int) :=
  let newLeaf := { LeafPage.init leafMax with nextPageId := leaf.nextPageId }
  let leaf1 := { leaf with nextPageId := newPageId }
  let pr := leaf1.splitLeafPage newLeaf key v
  (pr, ((pr.2.entries.headD (0, 0)).1, newPageId))

end BPT

namespace BPT

/-- A sample full sorted leaf used by concrete witnesses. -/
def leafW : LeafPage :=
  { entries := [(10, 0), (20, 1), (30, 2), (40, 3)], maxSize := 4, nextPageId := 7 }

end BPT

/-- C2 (amended): when `Insert` reaches a full leaf of `M = max_size` keys
with a non-duplicate key, the split distributes the `M + 1` keys so that
the old (left) leaf keeps `⌊(M+1)/2⌋` keys and the new (right) sibling
keeps `⌈(M+1)/2⌉` keys (their concatenation is exactly the sorted insertion
of the new pair), both pages sorted with every left key strictly below
every right key; the leaf chain is re-linked as `left.next = new_page_id`
and `new.next = old left.next`, and the separator propagated to the parent
is `new.key[0]` paired with the new page id. -/
theorem bpt_split_leaf_distribution (leaf : BPT.LeafPage) (newPageId : Int) (key v : Nat)
    (hfull : leaf.entries.length = leaf.maxSize)
    (hsorted : BPT.sortedByKey leaf.entries)
    (hfresh : key ∉ leaf.keys) :
    (BPT.splitLeafStep leaf leaf.maxSize newPageId key v).1.1.entries.length =
        (leaf.maxSize + 1) / 2 ∧
    (BPT.splitLeafStep leaf leaf.maxSize newPageId key v).1.2.entries.length =
        (leaf.maxSize + 2) / 2 ∧
    BPT.sortedByKey (BPT.splitLeafStep leaf leaf.maxSize newPageId key v).1.1.entries ∧
    BPT.sortedByKey (BPT.splitLeafStep leaf leaf.maxSize newPageId key v).1.2.entries ∧
    (∀ a ∈ (BPT.splitLeafStep leaf leaf.maxSize newPageId key v).1.1.entries,
      ∀ b ∈ (BPT.splitLeafStep leaf leaf.maxSize newPageId key v).1.2.entries, a.1 < b.1) ∧
    (BPT.splitLeafStep leaf leaf.maxSize newPageId key v).1.1.entries ++
        (BPT.splitLeafStep leaf leaf.maxSize newPageId key v).1.2.entries =
        BPT.insPair key v leaf.entries ∧
    (BPT.splitLeafStep leaf leaf.maxSize newPageId key v).1.1.nextPageId = newPageId ∧
    (BPT.splitLeafStep leaf leaf.maxSize newPageId key v).1.2.nextPageId = leaf.nextPageId ∧
    (BPT.splitLeafStep leaf leaf.maxSize newPageId key v).2 =
      (((BPT.splitLeafStep leaf leaf.maxSize newPageId key v).1.2.entries.headD (0, 0)).1,
        newPageId) := by
  have hsplit := BPT.splitLeafPage_take_drop { leaf with nextPageId := newPageId }
    { BPT.LeafPage.init leaf.maxSize with nextPageId := leaf.nextPageId } key v
    (by simpa using hfull) (by simpa using hsorted) (by simpa [BPT.LeafPage.keys] using hfresh)
  have hinslen : (BPT.insPair key v leaf.entries).length = leaf.maxSize + 1 := by
    rw [BPT.insPair]
    have hl := congrArg List.length
      (List.takeWhile_append_dropWhile (fun e => decide (e.1 < key)) leaf.entries)
    simp only [List.length_append] at hl
    simp only [List.length_append, List.length_cons]
    omega
  have hsi : BPT.sortedByKey (BPT.insPair key v leaf.entries) :=
    BPT.sortedByKey_insPair key v leaf.entries hsorted
      (by simpa [BPT.LeafPage.keys] using hfresh)
  simp only [BPT.splitLeafStep, hsplit]
  refine ⟨?_, ?_, ?_, ?_, ?_, ?_, by trivial, by trivial, by trivial⟩
  · simp only [List.length_take, hinslen]
    omega
  · simp only [List.length_drop, hinslen]
    omega
  · exact BPT.sortedByKey_sublist (List.take_sublist _ _) hsi
  · exact BPT.sortedByKey_sublist (List.drop_sublist _ _) hsi
  · have h := hsi
    rw [BPT.sortedByKey] at h
    conv at h => rw [← List.take_append_drop ((leaf.maxSize + 1) / 2)
      (BPT.insPair key v leaf.entries)]
    exact (List.pairwise_append.1 h).2.2
  · exact List.take_append_drop _ _

/-- Witness for C2: the split step evaluated on the full sorted leaf
`[10, 20, 30, 40]` (max size 4, next page 7) with new key 25 and new page
id 9. -/
theorem bpt_split_leaf_distribution_witness :
    (BPT.leafW.entries.length = BPT.leafW.maxSize ∧ BPT.sortedByKey BPT.leafW.entries ∧
      25 ∉ BPT.leafW.keys) ∧
    ((BPT.splitLeafStep BPT.leafW BPT.leafW.maxSize 9 25 8).1.1.entries.length =
        (BPT.leafW.maxSize + 1) / 2 ∧
      (BPT.splitLeafStep BPT.leafW BPT.leafW.maxSize 9 25 8).1.2.entries.length =
        (BPT.leafW.maxSize + 2) / 2 ∧
      BPT.sortedByKey (BPT.splitLeafStep BPT.leafW BPT.leafW.maxSize 9 25 8).1.1.entries ∧
      BPT.sortedByKey (BPT.splitLeafStep BPT.leafW BPT.leafW.maxSize 9 25 8).1.2.entries ∧
      (∀ a ∈ (BPT.splitLeafStep BPT.leafW BPT.leafW.maxSize 9 25 8).1.1.entries,
        ∀ b ∈ (BPT.splitLeafStep BPT.leafW BPT.leafW.maxSize 9 25 8).1.2.entries, a.1 < b.1) ∧
      (BPT.splitLeafStep BPT.leafW BPT.leafW.maxSize 9 25 8).1.1.entries ++
          (BPT.splitLeafStep BPT.leafW BPT.leafW.maxSize 9 25 8).1.2.entries =
          BPT.insPair 25 8 BPT.leafW.entries ∧
      (BPT.splitLeafStep BPT.leafW BPT.leafW.maxSize 9 25 8).1.1.nextPageId = 9 ∧
      (BPT.splitLeafStep BPT.leafW BPT.leafW.maxSize 9 25 8).1.2.nextPageId =
        BPT.leafW.nextPageId ∧
      (BPT.splitLeafStep BPT.leafW BPT.leafW.maxSize 9 25 8).2 =
        (((BPT.splitLeafStep BPT.leafW BPT.leafW.maxSize 9 25 8).1.2.entries.headD (0, 0)).1,
          9)) :=
  ⟨⟨by decide, by decide, by decide⟩,
    bpt_split_leaf_distribution BPT.leafW 9 25 8 (by decide) (by decide) (by decide)⟩

/-- C2 counterexample: for `M = 4` the claim's left-size formula
`⌈(M+1)/2⌉ = 3` does not match the code: splitting the full sorted leaf
`[10, 20, 30, 40]` on key 25 leaves 2 keys on the left page, not 3 (the
claim's two size formulas sum to `M + 2`, one more than the `M + 1` keys
being distributed). -/
theorem bpt_split_leaf_counterexample :
    (BPT.splitLeafStep BPT.leafW BPT.leafW.maxSize 9 25 8).1.1.entries.length = 2 ∧
    ¬ ((BPT.splitLeafStep BPT.leafW BPT.leafW.maxSize 9 25 8).1.1.entries.length = 3) := by
  decide

namespace BPT

/-- A sample non-full sorted leaf. -/
def leafW2 : LeafPage :=
  { entries := [(1, 11), (3, 13)], maxSize := 4, nextPageId := -1 }

/-- A second sample leaf whose keys all exceed those of `leafW2`. -/
def leafW3 : LeafPage :=
  { entries := [(5, 15), (8, 18)], maxSize := 4, nextPageId := -1 }

theorem insertKeyValue_entries (p : LeafPage) (key v : Nat) :
    (p.insertKeyValue key v).2.entries =
      if p.isFull then p.entries else insPair key v p.entries := by
  by_cases hf : p.isFull <;> simp [LeafPage.insertKeyValue, insPair, hf]

end BPT

/-- C10: the leaf-page primitives preserve strict key sortedness:
`InsertKeyValue` of a key not already present, `DeleteKey` (any key, any
root flag), `SplitLeafPage` on a full page with a fresh key (both resulting
pages sorted), and `CombinePage` when every absorbed key exceeds every
receiving key and the combined size fits `max_size` (both resulting pages,
the absorbed one becoming empty). -/
theorem bpt_leaf_ops_preserve_sorted :
    (∀ (p : BPT.LeafPage) (key v : Nat), BPT.sortedByKey p.entries → key ∉ p.keys →
      BPT.sortedByKey (p.insertKeyValue key v).2.entries) ∧
    (∀ (p : BPT.LeafPage) (key : Nat) (isRoot : Bool), BPT.sortedByKey p.entries →
      BPT.sortedByKey (p.deleteKey key isRoot).2.entries) ∧
    (∀ (p other : BPT.LeafPage) (key v : Nat), p.entries.length = p.maxSize →
      BPT.sortedByKey p.entries → key ∉ p.keys →
      BPT.sortedByKey (p.splitLeafPage other key v).1.entries ∧
      BPT.sortedByKey (p.splitLeafPage other key v).2.entries) ∧
    (∀ (p other : BPT.LeafPage), BPT.sortedByKey p.entries → BPT.sortedByKey other.entries →
      (∀ a ∈ p.entries, ∀ b ∈ other.entries, a.1 < b.1) →
      p.entries.length + other.entries.length ≤ p.maxSize →
      BPT.sortedByKey (p.combinePage other).1.entries ∧
      BPT.sortedByKey (p.combinePage other).2.entries) := by
  refine ⟨?_, ?_, ?_, ?_⟩
  · intro p key v hs hfresh
    rw [BPT.insertKeyValue_entries]
    by_cases hf : p.isFull
    · simpa [hf] using hs
    · simp only [hf, if_false]
      exact BPT.sortedByKey_insPair key v p.entries hs
        (by simpa [BPT.LeafPage.keys] using hfresh)
  · intro p key isRoot hs
    rw [BPT.LeafPage.deleteKey]
    by_cases hmin : ¬isRoot ∧ p.entries.length ≤ (p.maxSize + 1) / 2
    · simpa [hmin] using hs
    · simp only [hmin, if_false]
      cases hidx : p.entries.findIdx? (fun e => e.1 == key) with
      | none => simpa using hs
      | some pos =>
          simp only
          exact BPT.sortedByKey_sublist (List.eraseIdx_sublist _ _) hs
  · intro p other key v hfull hs hfresh
    have h := BPT.splitLeafPage_take_drop p other key v hfull hs hfresh
    have hsi : BPT.sortedByKey (BPT.insPair key v p.entries) :=
      BPT.sortedByKey_insPair key v p.entries hs
        (by simpa [BPT.LeafPage.keys] using hfresh)
    rw [h]
    exact ⟨BPT.sortedByKey_sublist (List.take_sublist _ _) hsi,
      BPT.sortedByKey_sublist (List.drop_sublist _ _) hsi⟩
  · intro p other hs hso hcross _
    refine ⟨?_, ?_⟩
    · rw [BPT.LeafPage.combinePage]
      simp only
      rw [BPT.sortedByKey, List.pairwise_append]
      exact ⟨hs, hso, hcross⟩
    · rw [BPT.LeafPage.combinePage]
      simp [BPT.sortedByKey]

/-- Witness for C10: the four preservation statements evaluated on concrete
sorted leaves (`[1, 3]`, `[5, 8]`, and the full `[10, 20, 30, 40]`). -/
theorem bpt_leaf_ops_preserve_sorted_witness :
    BPT.sortedByKey ((BPT.leafW2.insertKeyValue 2 12).2.entries) ∧
    BPT.sortedByKey ((BPT.leafW.deleteKey 20 true).2.entries) ∧
    BPT.sortedByKey ((BPT.leafW.splitLeafPage (BPT.LeafPage.init 4) 25 8).1.entries) ∧
    BPT.sortedByKey ((BPT.leafW.splitLeafPage (BPT.LeafPage.init 4) 25 8).2.entries) ∧
    BPT.sortedByKey ((BPT.leafW2.combinePage BPT.leafW3).1.entries) :=
  ⟨bpt_leaf_ops_preserve_sorted.1 BPT.leafW2 2 12 (by decide) (by decide),
    bpt_leaf_ops_preserve_sorted.2.1 BPT.leafW 20 true (by decide),
    (bpt_leaf_ops_preserve_sorted.2.2.1 BPT.leafW (BPT.LeafPage.init 4) 25 8 (by decide)
      (by decide) (by decide)).1,
    (bpt_leaf_ops_preserve_sorted.2.2.1 BPT.leafW (BPT.LeafPage.init 4) 25 8 (by decide)
      (by decide) (by decide)).2,
    (bpt_leaf_ops_preserve_sorted.2.2.2 BPT.leafW2 BPT.leafW3 (by decide) (by decide)
      (by decide) (by decide)).1⟩

namespace BPT

/-- An internal page, from `BPlusTreeInternalPage`
(b_plus_tree_internal_page.cpp).  Entry `i` holds `(key_array_[i],
page_id_array_[i])`; entry 0's key is the low key of the subtree (this
implementation maintains it, see `Insert`'s new-root branch and the split
code).  Child page ids are `Nat` (internal children are always valid
pages). -/
structure InternalPage where
  entries : List (Nat × Nat)
  maxSize : Nat
deriving DecidableEq, Repr, Inhabited

/-- `BPlusTreeInternalPage::Init` (b_plus_tree_internal_page.cpp:30-34). -/
def InternalPage.init (maxSize : Nat) : InternalPage :=
  { entries := [], maxSize := maxSize }

/-- Modelled from the spec: `IsFull` for internal pages (missing header):
full at `max_size` children. -/
def InternalPage.isFull (p : InternalPage) : Bool :=
  p.entries.length == p.maxSize

/-- `BPlusTreeInternalPage::SearchKeyIndex`
(b_plus_tree_internal_page.cpp:168-173): `std::upper_bound` over
`key_array_[1..size)` minus one — on a sorted page this is the number of
keys in positions `1..size)` that are at most `key`, i.e. the index of the
child whose range contains `key`. -/
def InternalPage.searchKeyIndex (p : InternalPage) (key : Nat) : Nat :=
  ((p.entries.drop 1).takeWhile (fun e => e.1 ≤ key)).length

/-- `BPlusTreeInternalPage::InsertKeyValueByIndex`
(b_plus_tree_internal_page.cpp:91-105): shift the tail up one slot and
write the pair at `pos`. -/
def InternalPage.insertAt (p : InternalPage) (key v : Nat) (pos : Nat) : InternalPage :=
  { p with entries := p.entries.take pos ++ (key, v) :: p.entries.drop pos }

/-- `BPlusTreeInternalPage::InsertKeyValue`
(b_plus_tree_internal_page.cpp:79-88): refuse when full, otherwise insert
at `SearchKeyIndex(key) + 1`. -/
def InternalPage.insertKeyValue (p : InternalPage) (key v : Nat) : Bool × InternalPage :=
  if p.isFull then (false, p)
  else (true, p.insertAt key v (p.searchKeyIndex key + 1))

/-- `BPlusTreeInternalPage::DeleteKeyByIndex`
(b_plus_tree_internal_page.cpp:194-207): report whether the pre-delete size
exceeded the minimum `(max_size+1)/2`, and close the gap at `key_index`. -/
def InternalPage.deleteKeyByIndex (p : InternalPage) (idx : Nat) : Bool × InternalPage :=
  ((p.maxSize + 1) / 2 < p.entries.length, { p with entries := p.entries.eraseIdx idx })

/-- `BPlusTreeInternalPage::CombinePage`
(b_plus_tree_internal_page.cpp:210-221): append the absorbed page's entries
and empty it.  (The source asserts the combined size fits; the model copies
regardless, as the release build does.) -/
def InternalPage.combinePage (p other : InternalPage) : InternalPage × InternalPage :=
  ({ p with entries := p.entries ++ other.entries }, { other with entries := [] })

/-- Loop 4 of `SplitInternalPage` (b_plus_tree_internal_page.cpp:158-163):
like `insertTop` but bounded by `left >= 1` — entry 0 is never displaced,
so with a single entry left the new pair is written above it. -/
def insertTopInt (key v : Nat) : List (Nat × Nat) → List (Nat × Nat)
  | [] => [(key, v)]
  | [e] => (key, v) :: [e]
  | e :: f :: rem =>
      if key < e.1 then e :: insertTopInt key v (f :: rem)
      else (key, v) :: e :: f :: rem

/-- `BPlusTreeInternalPage::SplitInternalPage`
(b_plus_tree_internal_page.cpp:108-165): on a full page, keep
`(max_size-1)/2 + 1` children here and give `max_size/2 + 1` to the empty
sibling; slots `other_size-1 .. 1` are filled by loops 1-2 (budget
`other_size - 1`, mirroring the `right >= 1` bound); the promoted key is
either the new key itself (when it would sit exactly at the boundary) or
the key at `left`, which becomes the sibling's entry 0; loop 4 then
shift-inserts the new pair into this page when it belongs here.  Returns
the two pages and the promoted key. -/
def InternalPage.splitInternalPage (p other : InternalPage) (key v : Nat) :
    (InternalPage × InternalPage) × Nat :=
  let otherSize := p.maxSize / 2 + 1
  let thisSize := (p.maxSize - 1) / 2 + 1
  let s1 := moveTopGT key (otherSize - 1) (p.entries.reverse) []
  let s2 := if 0 < s1.1 then moveTop (s1.1 - 1) s1.2.1 ((key, v) :: s1.2.2)
            else (s1.2.1, s1.2.2)
  if s2.1.length = thisSize ∧ (s2.1.headD (0, 0)).1 ≤ key then
    (({ p with entries := s2.1.reverse }, { other with entries := (key, v) :: s2.2 }), key)
  else
    let ret := s2.1.headD (0, 0)
    let rem3 := s2.1.tail
    if rem3.length = thisSize then
      (({ p with entries := rem3.reverse }, { other with entries := ret :: s2.2 }), ret.1)
    else
      (({ p with entries := (insertTopInt key v rem3).reverse },
        { other with entries := ret :: s2.2 }), ret.1)

/-- A page of the tree: the discriminant `page_type` of `BPlusTreePage`. -/
inductive TreePage where
  | leaf : LeafPage → TreePage
  | internal : InternalPage → TreePage
deriving DecidableEq, Repr

/-- The tree state visible to `BPlusTree`: the pages by id (the buffer pool
abstracted to a map), the header page's `root_page_id_` (`-1` = empty), the
BPM's monotonic `NewPage` counter, and the two configured max sizes. -/
structure TreeState where
  pages : Nat → Option TreePage
  rootId : Int
  nextPage : Nat
  leafMax : Nat
  internalMax : Nat

/-- Point update of the page map. -/
def updPage (m : Nat → Option TreePage) (pid : Nat) (pg : TreePage) : Nat → Option TreePage :=
  fun q => if q = pid then some pg else m q

/-- Page deletion (`BufferPoolManager::DeletePage` from the tree's point of
view). -/
def delPage (m : Nat → Option TreePage) (pid : Nat) : Nat → Option TreePage :=
  fun q => if q = pid then none else m q

/-- Modelled from the spec: `BPlusTree::LeafSearch` (the templated descent
helper lives in the missing b_plus_tree header).  Per the spec it descends
from the root choosing `child = ValueAt(SearchKeyIndex(key))` at each
internal node and stacks the write guards; no page is modified.  Returns
the path with the leaf first and the root last (the order in which
`Insert`/`Remove` pop `ctx.write_set_`), or `none` when the descent runs
out of fuel or hits a missing page (impossible on well-formed trees). -/
def leafSearchPath (s : TreeState) (key : Nat) : Nat → Nat → List Nat → Option (List Nat)
  | 0, _, _ => none
  | fuel + 1, pid, acc =>
      match s.pages pid with
      | some (.leaf _) => some (pid :: acc)
      | some (.internal ip) =>
          leafSearchPath s key fuel ((ip.entries.getD (ip.searchKeyIndex key) (0, 0)).2)
            (pid :: acc)
      | none => none

/-- `BPlusTree::GetValue` (b_plus_tree.cpp:55-87) with `LeafSearchRead`
(89-105): read-crab to the leaf, then scan it collecting the values of
every equal key; the boolean reports whether any was found. -/
def getValue (s : TreeState) (key : Nat) : Bool × List Nat :=
  if s.rootId = -1 then (false, [])
  else
    match leafSearchPath s key (s.nextPage + 1) s.rootId.toNat [] with
    | some (leafId :: _) =>
        match s.pages leafId with
        | some (.leaf lp) =>
            let vs := (lp.entries.filter (fun e => e.1 == key)).map Prod.snd
            (!vs.isEmpty, vs)
        | _ => (false, [])
    | _ => (false, [])

/-- The upward propagation loop of `BPlusTree::Insert`
(b_plus_tree.cpp:178-214): pop ancestors; a non-full parent absorbs the
separator; a full parent splits and promotes further; an empty stack makes
a new root `{child[0] = old_root (low key k0), key[1] = separator,
child[1] = new page}` and updates `header.root_page_id_`. -/
def insertUp (s : TreeState) : List Nat → Nat → Nat → Nat → Nat → TreeState
  | [], newKey, newVal, k0, oldRoot =>
      let newRootId := s.nextPage
      { s with
        nextPage := s.nextPage + 1,
        pages := updPage s.pages newRootId
          (.internal { entries := [(k0, oldRoot), (newKey, newVal)],
                       maxSize := s.internalMax }),
        rootId := (newRootId : Int) }
  | pid :: rest, newKey, newVal, _, oldRoot =>
      match s.pages pid with
      | some (.internal parent) =>
          let pr := parent.insertKeyValue newKey newVal
          if pr.1 then { s with pages := updPage s.pages pid (.internal pr.2) }
          else
            let newInternalId := s.nextPage
            let s1 := { s with nextPage := s.nextPage + 1 }
            let res := parent.splitInternalPage (InternalPage.init s.internalMax) newKey newVal
            insertUp
              { s1 with
                pages := updPage (updPage s1.pages pid (.internal res.1.1)) newInternalId
                  (.internal res.1.2) }
              rest res.2 newInternalId ((res.1.1.entries.headD (0, 0)).1) oldRoot
      | _ => s

/-- `BPlusTree::Insert` (b_plus_tree.cpp:118-215): create a root leaf on an
empty tree; otherwise descend, refuse duplicates, insert in place into a
non-full leaf, and otherwise split the leaf and propagate the separator
upward. -/
def insert (s : TreeState) (key v : Nat) : Bool × TreeState :=
  if s.rootId = -1 then
    let newRootId := s.nextPage
    let lp := LeafPage.init s.leafMax
    let pr := lp.insertKeyValue key v
    (pr.1,
      { s with
        nextPage := s.nextPage + 1,
        rootId := (newRootId : Int),
        pages := updPage s.pages newRootId (.leaf pr.2) })
  else
    match leafSearchPath s key (s.nextPage + 1) s.rootId.toNat [] with
    | some (leafId :: ancestors) =>
        match s.pages leafId with
        | some (.leaf leaf) =>
            let posI := leaf.searchKeyIndex key
            if posI ≠ -1 ∧ (leaf.entries.getD posI.toNat (0, 0)).1 = key then (false, s)
            else
              let pos := if posI = -1 then
                  (if leaf.entries.length = 0 then 0 else leaf.entries.length)
                else posI.toNat
              if ¬ leaf.isFull then
                (true,
                  { s with pages := updPage s.pages leafId (.leaf (leaf.insertAt key v pos)) })
              else
                let newPageId := s.nextPage
                let s1 := { s with nextPage := s.nextPage + 1 }
                let res := splitLeafStep leaf s.leafMax (newPageId : Int) key v
                let s2 :=
                  { s1 with
                    pages := updPage (updPage s1.pages leafId (.leaf res.1.1)) newPageId
                      (.leaf res.1.2) }
                (true, insertUp s2 ancestors res.2.1 newPageId
                  ((res.1.1.entries.headD (0, 0)).1) s.rootId.toNat)
        | _ => (false, s)
    | _ => (false, s)

end BPT

namespace BPT

/-- `BPlusTree::BorrowOrCombineWithSiblingLeafPage`
(b_plus_tree.cpp:311-380): with a right sibling (any slot after
`key_index`), force-delete the target key from the leaf, then either borrow
the right sibling's first entry (when the two pages together would
overflow) and push its new first key into the parent slot, or merge the
right sibling into the leaf and delete its page; with only a left sibling,
borrow its last entry when it can lend one (size above `(max_size+2)/2`)
updating the parent's key for the leaf, and otherwise merge the leaf into
the left sibling and delete the leaf's page.  Returns `(is_borrow,
parent slot to delete)`, the updated parent page and the updated state. -/
def borrowOrCombineLeaf (s : TreeState) (leafId : Nat) (leaf : LeafPage)
    (parent : InternalPage) (targetKey : Nat) (keyIndex : Nat) :
    (Bool × Nat) × InternalPage × TreeState :=
  if keyIndex + 1 < parent.entries.length then
    let rightId := (parent.entries.getD (keyIndex + 1) (0, 0)).2
    match s.pages rightId with
    | some (.leaf rightPage) =>
        let leaf1 := (leaf.deleteKey targetKey true).2
        if leaf1.maxSize < rightPage.entries.length + leaf1.entries.length then
          let moved := rightPage.entries.headD (0, 0)
          let leaf2 := { leaf1 with entries := leaf1.entries ++ [moved] }
          let right2 := (rightPage.deleteKey moved.1 true).2
          let newSep := ((right2.entries.headD (0, 0)).1,
            (parent.entries.getD (keyIndex + 1) (0, 0)).2)
          let parent2 :=
            { parent with entries := parent.entries.set (keyIndex + 1) newSep }
          let pages2 := updPage (updPage s.pages leafId (.leaf leaf2)) rightId (.leaf right2)
          ((true, 0), parent2, { s with pages := pages2 })
        else
          let cp := leaf1.combinePage rightPage
          ((false, keyIndex + 1), parent,
            { s with pages := delPage (updPage s.pages leafId (.leaf cp.1)) rightId })
    | _ => ((true, 0), parent, s)
  else
    let leftId := (parent.entries.getD (keyIndex - 1) (0, 0)).2
    match s.pages leftId with
    | some (.leaf leftPage) =>
        let leaf1 := (leaf.deleteKey targetKey true).2
        if (leftPage.maxSize + 2) / 2 < leftPage.entries.length then
          let last := leftPage.entries.getD (leftPage.entries.length - 1) (0, 0)
          let leaf2 := (leaf1.insertKeyValue last.1 last.2).2
          let left2 := { leftPage with entries := leftPage.entries.dropLast }
          let newSep := ((leaf2.entries.headD (0, 0)).1,
            (parent.entries.getD keyIndex (0, 0)).2)
          let parent2 :=
            { parent with entries := parent.entries.set keyIndex newSep }
          let pages2 := updPage (updPage s.pages leafId (.leaf leaf2)) leftId (.leaf left2)
          ((true, 0), parent2, { s with pages := pages2 })
        else
          let cp := leftPage.combinePage leaf1
          ((false, keyIndex), parent,
            { s with pages := delPage (updPage s.pages leftId (.leaf cp.1)) leafId })
    | _ => ((true, 0), parent, s)

/-- `BPlusTree::BorrowOrCombineWithSiblingInternalPage`
(b_plus_tree.cpp:383-445): locate the node's slot in its parent by its low
key; with a right sibling, either borrow its first entry (appending it to
the node and reporting the sibling's new low key for the parent slot
`key_index+1`) or absorb the sibling and delete its page; with only a left
sibling, either borrow its last entry (inserted at position 0) or merge
into it and delete the node's page.  Returns `(is_borrow, parent slot,
key)` and the updated state (the parent page itself is updated by the
caller). -/
def borrowOrCombineInternal (s : TreeState) (curId : Nat) (cur : InternalPage)
    (parent : InternalPage) : (Bool × Nat × Nat) × TreeState :=
  let keyIndex := parent.searchKeyIndex ((cur.entries.headD (0, 0)).1)
  if keyIndex < parent.entries.length - 1 then
    let rightId := (parent.entries.getD (keyIndex + 1) (0, 0)).2
    match s.pages rightId with
    | some (.internal rightPage) =>
        if (rightPage.maxSize + 2) / 2 < rightPage.entries.length then
          let moved := rightPage.entries.headD (0, 0)
          let cur2 := { cur with entries := cur.entries ++ [moved] }
          let right2 := (rightPage.deleteKeyByIndex 0).2
          let pages2 := updPage (updPage s.pages curId (.internal cur2)) rightId
            (.internal right2)
          ((true, keyIndex + 1, (right2.entries.headD (0, 0)).1), { s with pages := pages2 })
        else
          let keyToDelete := (rightPage.entries.headD (0, 0)).1
          let cp := cur.combinePage rightPage
          ((false, keyIndex + 1, keyToDelete),
            { s with pages := delPage (updPage s.pages curId (.internal cp.1)) rightId })
    | _ => ((true, 0, 0), s)
  else
    let leftId := (parent.entries.getD (keyIndex - 1) (0, 0)).2
    match s.pages leftId with
    | some (.internal leftPage) =>
        if (leftPage.maxSize + 2) / 2 < leftPage.entries.length then
          let last := leftPage.entries.getD (leftPage.entries.length - 1) (0, 0)
          let cur2 := cur.insertAt last.1 last.2 0
          let left2 := { leftPage with entries := leftPage.entries.dropLast }
          let pages2 := updPage (updPage s.pages curId (.internal cur2)) leftId
            (.internal left2)
          ((true, keyIndex, last.1), { s with pages := pages2 })
        else
          let keyToDelete := (cur.entries.headD (0, 0)).1
          let cp := leftPage.combinePage cur
          ((false, keyIndex, keyToDelete),
            { s with pages := delPage (updPage s.pages leftId (.internal cp.1)) curId })
    | _ => ((true, 0, 0), s)

/-- The upward propagation loop of `BPlusTree::Remove`
(b_plus_tree.cpp:279-307): repeatedly borrow-or-merge the current internal
node against its parent; a borrow rewrites one parent key and stops; a
parent still above minimum occupancy after the slot deletion stops;
otherwise continue upward.  When the stack empties and the last parent (the
root) is left with a single child, that child becomes the new root and the
old root page is deleted. -/
def removeUp (s : TreeState) : List Nat → Nat → TreeState
  | [], parentId =>
      match s.pages parentId with
      | some (.internal parent) =>
          if parent.entries.length ≤ 1 then
            { s with
              rootId := ((parent.entries.headD (0, 0)).2 : Int),
              pages := delPage s.pages parentId }
          else s
      | _ => s
  | gpId :: rest, curId =>
      match s.pages curId, s.pages gpId with
      | some (.internal cur), some (.internal gp) =>
          let br := borrowOrCombineInternal s curId cur gp
          let s1 := br.2
          if br.1.1 then
            let newSep := (br.1.2.2, (gp.entries.getD br.1.2.1 (0, 0)).2)
            let gp2 := { gp with entries := gp.entries.set br.1.2.1 newSep }
            { s1 with pages := updPage s1.pages gpId (.internal gp2) }
          else
            let dr := gp.deleteKeyByIndex br.1.2.1
            let s2 := { s1 with pages := updPage s1.pages gpId (.internal dr.2) }
            if dr.1 then s2
            else removeUp s2 rest gpId
      | _, _ => s

/-- `BPlusTree::Remove` (b_plus_tree.cpp:228-308): return immediately on an
empty tree; descend to the leaf; a plain `DeleteKey` succeeds when the leaf
is the root or above minimum occupancy (emptying the root leaf clears the
tree); otherwise enter the leaf borrow-or-merge path and propagate slot
deletions upward. -/
def remove (s : TreeState) (key : Nat) : TreeState :=
  if s.rootId = -1 then s
  else
    match leafSearchPath s key (s.nextPage + 1) s.rootId.toNat [] with
    | some (leafId :: ancestors) =>
        match s.pages leafId with
        | some (.leaf leaf) =>
            let pr := leaf.deleteKey key (s.rootId = (leafId : Int))
            if pr.1 then
              if pr.2.entries.length = 0 then
                { s with rootId := -1, pages := delPage s.pages s.rootId.toNat }
              else { s with pages := updPage s.pages leafId (.leaf pr.2) }
            else
              match ancestors with
              | [] => s
              | parentId :: rest =>
                  match s.pages parentId with
                  | some (.internal parent) =>
                      let leafKey := (leaf.entries.headD (0, 0)).1
                      let keyIndex := parent.searchKeyIndex leafKey
                      let br := borrowOrCombineLeaf s leafId leaf parent key keyIndex
                      let parent1 := br.2.1
                      let s1 := { br.2.2 with
                        pages := updPage br.2.2.pages parentId (.internal parent1) }
                      if br.1.1 then s1
                      else
                        let dr := parent1.deleteKeyByIndex br.1.2
                        let s2 := { s1 with
                          pages := updPage s1.pages parentId (.internal dr.2) }
                        if dr.1 then s2
                        else removeUp s2 rest parentId
                  | _ => s
        | _ => s
    | _ => s

end BPT

namespace BPT

/-- A freshly constructed tree (header holds `INVALID_PAGE_ID`). -/
def emptyTree (lm im : Nat) : TreeState :=
  { pages := fun _ => none, rootId := -1, nextPage := 0, leafMax := lm, internalMax := im }

/-- Run a list of insertions (value = key + 100). -/
def insertAll (s : TreeState) (ks : List Nat) : TreeState :=
  ks.foldl (fun s k => (insert s k (k + 100)).2) s

/-- The entries of the leaf page stored at `pid`. -/
def leafEntriesAt (s : TreeState) (pid : Nat) : Option (List (Nat × Nat)) :=
  match s.pages pid with
  | some (.leaf lp) => some lp.entries
  | _ => none

/-- The `max_size` of the leaf page stored at `pid`. -/
def leafMaxAt (s : TreeState) (pid : Nat) : Option Nat :=
  match s.pages pid with
  | some (.leaf lp) => some lp.maxSize
  | _ => none

/-- The tree reached by inserting `1,2,3,4,5,0` and removing `5` with
`leaf_max_size = 4`, `internal_max_size = 3`: a root (page 2) over the
leaves `[0,1,2]` (page 0) and `[3,4]` (page 1); the right leaf is a
non-root leaf at minimum occupancy `(4+1)/2 = 2`. -/
def c4Start : TreeState :=
  remove (insertAll (emptyTree 4 3) [1, 2, 3, 4, 5, 0]) 5

end BPT

/-- C4: `Remove` of the absent key 6 on the reachable tree `c4Start`
(leaves `[0,1,2]` and `[3,4]`, `leaf_max_size = 4`) is *not* a no-op: the
descent reaches the minimum-occupancy leaf `[3,4]`, `DeleteKey` refuses
without looking for the key, and the left-sibling merge path fires without
checking the combined size: `CombinePage` merges 3 + 2 = 5 entries onto a
page with `max_size = 4`, violating its own
`BUSTUB_ASSERT(this_size + other_size <= GetMaxSize())`
(b_plus_tree_leaf_page.cpp:185) — the process aborts in a debug build and
the leaf is left overfull in a release build.  (`Remove` on an empty tree
does return immediately.) -/
theorem bpt_remove_absent_key_corrupts :
    (BPT.getValue BPT.c4Start 6).1 = false ∧
    BPT.leafEntriesAt BPT.c4Start 1 =
      some [(3, 103), (4, 104)] ∧
    BPT.leafEntriesAt BPT.c4Start 0 =
      some [(0, 100), (1, 101), (2, 102)] ∧
    BPT.leafMaxAt BPT.c4Start 0 = some 4 ∧
    BPT.leafEntriesAt (BPT.remove BPT.c4Start 6) 0 =
      some [(0, 100), (1, 101), (2, 102), (3, 103), (4, 104)] ∧
    BPT.leafMaxAt (BPT.remove BPT.c4Start 6) 0 = some 4 ∧
    BPT.remove (BPT.emptyTree 4 3) 6 = BPT.emptyTree 4 3 := by
  refine ⟨by decide, by decide, by decide, by decide, by decide, by decide, rfl⟩

namespace BPT

/-- `k` lies in the half-open interval given by the optional bounds. -/
def boundOK (lo hi : Option Nat) (k : Nat) : Bool :=
  (match lo with
   | some l => decide (l ≤ k)
   | none => true) &&
  (match hi with
   | some h => decide (k < h)
   | none => true)

/-- All keys stored in the subtree rooted at `pid`, left to right
(`fuel`-bounded recursion over the page graph). -/
def subtreeKeys (s : TreeState) : Nat → Nat → List Nat
  | 0, _ => []
  | fuel + 1, pid =>
      match s.pages pid with
      | some (.leaf lp) => lp.entries.map Prod.fst
      | some (.internal ip) => ip.entries.bind (fun e => subtreeKeys s fuel e.2)
      | none => []

/-- Structural well-formedness of the subtree rooted at `pid` within the
optional key bounds `[lo, hi)`: leaves are sorted and bounded; an internal
page has at least two children, strictly increasing keys (entry 0 carrying
the subtree's low key, as this implementation maintains), keys within the
bounds, and each child `i` well-formed within `[key_i, key_{i+1})` (the
last child up to `hi`).  This is the invariant `Insert`'s descent relies
on. -/
def subtreeOK (s : TreeState) : Nat → Nat → Option Nat → Option Nat → Bool
  | 0, _, _, _ => false
  | fuel + 1, pid, lo, hi =>
      match s.pages pid with
      | some (.leaf lp) =>
          decide (sortedByKey lp.entries) && lp.entries.all (fun e => boundOK lo hi e.1)
      | some (.internal ip) =>
          decide (2 ≤ ip.entries.length) &&
          decide ((ip.entries.map Prod.fst).Pairwise (· < ·)) &&
          boundOK lo hi ((ip.entries.headD (0, 0)).1) &&
          (match hi with
           | some h => ip.entries.all (fun e => decide (e.1 < h))
           | none => true) &&
          (List.range ip.entries.length).all (fun i =>
            subtreeOK s fuel (ip.entries.getD i (0, 0)).2
              (some ((ip.entries.getD i (0, 0)).1))
              (if i + 1 < ip.entries.length then some ((ip.entries.getD (i + 1) (0, 0)).1)
               else hi))
      | none => false

/-- All keys currently stored in the tree. -/
def treeKeys (s : TreeState) : List Nat :=
  if s.rootId = -1 then [] else subtreeKeys s (s.nextPage + 1) s.rootId.toNat

/-- Well-formedness of the whole tree: empty, or the root subtree is
well-formed with unconstrained bounds within the descent fuel
`next_page_id + 1`. -/
def treeOK (s : TreeState) : Bool :=
  decide (s.rootId = -1) || subtreeOK s (s.nextPage + 1) s.rootId.toNat none none

theorem boundOK_iff (lo hi : Option Nat) (k : Nat) :
    boundOK lo hi k = true ↔ (∀ l, lo = some l → l ≤ k) ∧ (∀ h, hi = some h → k < h) := by
  cases lo <;> cases hi <;> simp [boundOK]

theorem takeWhile_getD_mem {α : Type} (p : α → Bool) (d : α) :
    ∀ (l : List α) (i : Nat), i < (l.takeWhile p).length → p (l.getD i d) = true
  | [], i, h => by simp [List.takeWhile] at h
  | a :: t, i, h => by
      by_cases hp : p a
      · rw [List.takeWhile_cons_of_pos hp] at h
        cases i with
        | zero => simpa using hp
        | succ i =>
            simp only [List.length_cons, Nat.succ_lt_succ_iff] at h
            simpa using takeWhile_getD_mem p d t i h
      · rw [List.takeWhile_cons_of_neg hp] at h
        simp at h

theorem takeWhile_getD_stop {α : Type} (p : α → Bool) (d : α) :
    ∀ (l : List α), (l.takeWhile p).length < l.length →
      p (l.getD (l.takeWhile p).length d) = false
  | [], h => by simp at h
  | a :: t, h => by
      by_cases hp : p a
      · rw [List.takeWhile_cons_of_pos hp] at h ⊢
        simp only [List.length_cons, Nat.succ_lt_succ_iff] at h
        simpa using takeWhile_getD_stop p d t h
      · rw [List.takeWhile_cons_of_neg hp]
        simpa using hp

theorem pairwise_fst_getD_lt {l : List (Nat × Nat)}
    (hp : (l.map Prod.fst).Pairwise (· < ·)) {i j : Nat} (hij : i < j) (hj : j < l.length) :
    (l.getD i (0, 0)).1 < (l.getD j (0, 0)).1 := by
  have hi : i < l.length := lt_trans hij hj
  rw [List.getD_eq_getElem _ _ hi, List.getD_eq_getElem _ _ hj]
  have := (List.pairwise_iff_get.1 hp) ⟨i, by simpa using hi⟩ ⟨j, by simpa using hj⟩
    (by simpa using hij)
  simpa using this

theorem pairwise_fst_getD_le {l : List (Nat × Nat)}
    (hp : (l.map Prod.fst).Pairwise (· < ·)) {i j : Nat} (hij : i ≤ j) (hj : j < l.length) :
    (l.getD i (0, 0)).1 ≤ (l.getD j (0, 0)).1 := by
  rcases Nat.lt_or_ge i j with h | h
  · exact le_of_lt (pairwise_fst_getD_lt hp h hj)
  · have : i = j := le_antisymm hij h
    subst this
    exact le_refl _

end BPT

namespace BPT

theorem headD_eq_getD_zero (l : List (Nat × Nat)) : l.headD (0, 0) = l.getD 0 (0, 0) := by
  cases l <;> rfl

theorem drop_one_getD (l : List (Nat × Nat)) (i : Nat) :
    (l.drop 1).getD i (0, 0) = l.getD (i + 1) (0, 0) := by
  cases l <;> rfl

/-- Every key stored in a well-formed subtree lies within the subtree's
bounds. -/
theorem subtreeKeys_bounded (s : TreeState) :
    ∀ (fuel pid : Nat) (lo hi : Option Nat), subtreeOK s fuel pid lo hi = true →
      ∀ k ∈ subtreeKeys s fuel pid, boundOK lo hi k = true := by
  intro fuel
  induction fuel with
  | zero => intro pid lo hi hok; simp [subtreeOK] at hok
  | succ fuel ih =>
      intro pid lo hi hok k hk
      cases hpg : s.pages pid with
      | none => rw [subtreeOK, hpg] at hok; exact absurd hok (by simp)
      | some pg =>
          cases pg with
          | leaf lp =>
              simp only [subtreeKeys, hpg] at hk
              simp only [subtreeOK, hpg, Bool.and_eq_true, List.all_eq_true] at hok
              obtain ⟨e, he, rfl⟩ := List.mem_map.1 hk
              exact hok.2 e he
          | internal ip =>
              simp only [subtreeKeys, hpg] at hk
              simp only [subtreeOK, hpg, Bool.and_eq_true, List.all_eq_true,
                decide_eq_true_eq, List.mem_range] at hok
              obtain ⟨⟨⟨⟨hlen, hsort⟩, hlo⟩, hhi⟩, hchild⟩ := hok
              obtain ⟨e, he, hke⟩ := List.mem_bind.1 hk
              obtain ⟨j, hj, hje⟩ := List.mem_iff_getElem.1 he
              have hgd : ip.entries.getD j (0, 0) = e := by
                rw [List.getD_eq_getElem _ _ hj, hje]
              have hcOK := hchild j hj
              rw [hgd] at hcOK
              have hkb := ih _ _ _ hcOK k hke
              obtain ⟨hlow, hup⟩ := (boundOK_iff _ _ _).1 hkb
              have hek : e.1 ≤ k := hlow e.1 rfl
              refine (boundOK_iff _ _ _).2 ⟨?_, ?_⟩
              · intro l hl
                obtain ⟨hlo1, _⟩ := (boundOK_iff _ _ _).1 hlo
                have h0 : l ≤ (ip.entries.headD (0, 0)).1 := hlo1 l hl
                have h0j : (ip.entries.getD 0 (0, 0)).1 ≤ (ip.entries.getD j (0, 0)).1 :=
                  pairwise_fst_getD_le hsort (Nat.zero_le j) hj
                rw [headD_eq_getD_zero] at h0
                rw [hgd] at h0j
                exact le_trans h0 (le_trans h0j hek)
              · intro h hh
                subst hh
                simp only [List.all_eq_true, decide_eq_true_eq] at hhi
                by_cases hj1 : j + 1 < ip.entries.length
                · rw [if_pos hj1] at hup
                  have hk1 : k < (ip.entries.getD (j + 1) (0, 0)).1 := hup _ rfl
                  have hmem1 : ip.entries.getD (j + 1) (0, 0) ∈ ip.entries := by
                    rw [List.getD_eq_getElem _ _ hj1]
                    exact List.getElem_mem _
                  exact lt_trans hk1 (hhi _ hmem1)
                · rw [if_neg hj1] at hup
                  exact hup h rfl

end BPT

namespace BPT

/-- On a sorted internal page, `SearchKeyIndex` returns exactly the index
of the child whose key range contains `key`: if `key_j ≤ key` and (when a
successor exists) `key < key_{j+1}`, then the chosen index is `j`. -/
theorem searchKeyIndex_correct (ip : InternalPage) (key j : Nat)
    (hsort : (ip.entries.map Prod.fst).Pairwise (· < ·))
    (hj : j < ip.entries.length)
    (hjk : (ip.entries.getD j (0, 0)).1 ≤ key)
    (hjk1 : j + 1 < ip.entries.length → key < (ip.entries.getD (j + 1) (0, 0)).1) :
    ip.searchKeyIndex key = j := by
  have hDlen : (ip.entries.drop 1).length = ip.entries.length - 1 := by simp
  have hidxle : (((ip.entries.drop 1).takeWhile (fun e => decide (e.1 ≤ key))).length) ≤
      (ip.entries.drop 1).length := (List.takeWhile_sublist _).length_le
  have hmem : ∀ i, i < ((ip.entries.drop 1).takeWhile (fun e => decide (e.1 ≤ key))).length →
      (ip.entries.getD (i + 1) (0, 0)).1 ≤ key := by
    intro i hi
    have h := takeWhile_getD_mem (fun e => decide (e.1 ≤ key)) (0, 0) (ip.entries.drop 1) i hi
    rw [drop_one_getD] at h
    exact of_decide_eq_true h
  have hstop : ((ip.entries.drop 1).takeWhile (fun e => decide (e.1 ≤ key))).length <
      (ip.entries.drop 1).length →
      key < (ip.entries.getD
        (((ip.entries.drop 1).takeWhile (fun e => decide (e.1 ≤ key))).length + 1) (0, 0)).1 := by
    intro hlt
    have h := takeWhile_getD_stop (fun e => decide (e.1 ≤ key)) (0, 0) (ip.entries.drop 1) hlt
    rw [drop_one_getD] at h
    exact Nat.lt_of_not_le (of_decide_eq_false h)
  show ((ip.entries.drop 1).takeWhile (fun e => decide (e.1 ≤ key))).length = j
  rcases Nat.lt_trichotomy j
      (((ip.entries.drop 1).takeWhile (fun e => decide (e.1 ≤ key))).length) with hlt | heq | hgt
  · exfalso
    have hj1 : j + 1 < ip.entries.length := by omega
    exact absurd (hmem j hlt) (not_le.2 (hjk1 hj1))
  · exact heq.symm
  · exfalso
    have hlt2 : ((ip.entries.drop 1).takeWhile (fun e => decide (e.1 ≤ key))).length <
        (ip.entries.drop 1).length := by omega
    have h2 := hstop hlt2
    have hmono : (ip.entries.getD
        (((ip.entries.drop 1).takeWhile (fun e => decide (e.1 ≤ key))).length + 1) (0, 0)).1 ≤
        (ip.entries.getD j (0, 0)).1 :=
      pairwise_fst_getD_le hsort (by omega) hj
    omega

/-- On a well-formed subtree containing `key`, the `LeafSearch` descent
reaches a leaf that contains `key`, and that leaf is sorted. -/
theorem descent_finds_key (s : TreeState) (key : Nat) :
    ∀ (fuel pid : Nat) (lo hi : Option Nat) (acc : List Nat),
      subtreeOK s fuel pid lo hi = true →
      key ∈ subtreeKeys s fuel pid →
      ∃ leafId rest lp,
        leafSearchPath s key fuel pid acc = some (leafId :: rest) ∧
        s.pages leafId = some (.leaf lp) ∧
        sortedByKey lp.entries ∧ key ∈ lp.entries.map Prod.fst := by
  intro fuel
  induction fuel with
  | zero => intro pid lo hi acc hok; simp [subtreeOK] at hok
  | succ fuel ih =>
      intro pid lo hi acc hok hk
      cases hpg : s.pages pid with
      | none => rw [subtreeOK, hpg] at hok; exact absurd hok (by simp)
      | some pg =>
          cases pg with
          | leaf lp =>
              simp only [subtreeKeys, hpg] at hk
              simp only [subtreeOK, hpg, Bool.and_eq_true, decide_eq_true_eq] at hok
              exact ⟨pid, acc, lp, by simp only [leafSearchPath, hpg], hpg, hok.1, hk⟩
          | internal ip =>
              simp only [subtreeKeys, hpg] at hk
              simp only [subtreeOK, hpg, Bool.and_eq_true, List.all_eq_true,
                decide_eq_true_eq, List.mem_range] at hok
              obtain ⟨⟨⟨⟨hlen, hsort⟩, hlo⟩, hhi⟩, hchild⟩ := hok
              obtain ⟨e, he, hke⟩ := List.mem_bind.1 hk
              obtain ⟨j, hj, hje⟩ := List.mem_iff_getElem.1 he
              have hgd : ip.entries.getD j (0, 0) = e := by
                rw [List.getD_eq_getElem _ _ hj, hje]
              have hcOK := hchild j hj
              obtain ⟨hlow, hup⟩ := (boundOK_iff _ _ _).1
                (subtreeKeys_bounded s fuel _ _ _ hcOK key (by rw [hgd]; exact hke))
              have hjk : (ip.entries.getD j (0, 0)).1 ≤ key := hlow _ rfl
              have hup' : j + 1 < ip.entries.length →
                  key < (ip.entries.getD (j + 1) (0, 0)).1 := by
                intro hj1
                rw [if_pos hj1] at hup
                exact hup _ rfl
              have hidx := searchKeyIndex_correct ip key j hsort hj hjk hup'
              have hstep : leafSearchPath s key (fuel + 1) pid acc =
                  leafSearchPath s key fuel (ip.entries.getD j (0, 0)).2 (pid :: acc) := by
                simp only [leafSearchPath, hpg]
                rw [hidx]
              obtain ⟨leafId, rest, lp, hp, hpg2, hs2, hm2⟩ :=
                ih (ip.entries.getD j (0, 0)).2 (some (ip.entries.getD j (0, 0)).1)
                  (if j + 1 < ip.entries.length then some ((ip.entries.getD (j + 1) (0, 0)).1)
                   else hi) (pid :: acc) hcOK (by rw [hgd]; exact hke)
              exact ⟨leafId, rest, lp, by rw [hstep]; exact hp, hpg2, hs2, hm2⟩

end BPT

namespace BPT

/-- In a sorted leaf that contains `key`, the scan position
`(takeWhile (· < key)).length` lands strictly inside the page and the
entry there carries exactly `key`. -/
theorem sorted_mem_leaf_pos (key : Nat) :
    ∀ (l : List (Nat × Nat)), sortedByKey l → key ∈ l.map Prod.fst →
      (l.takeWhile (fun e => decide (e.1 < key))).length < l.length ∧
      (l.getD (l.takeWhile (fun e => decide (e.1 < key))).length (0, 0)).1 = key := by
  intro l
  induction l with
  | nil => intro _ hm; simp at hm
  | cons a t iht =>
      intro hs hm
      simp only [sortedByKey, List.pairwise_cons] at hs
      by_cases ha : a.1 < key
      · have hm' : key ∈ t.map Prod.fst := by
          obtain ⟨e, he, hek⟩ := List.mem_map.1 hm
          rcases List.mem_cons.1 he with h | h
          · subst h; omega
          · exact List.mem_map.2 ⟨e, h, hek⟩
        obtain ⟨h1, h2⟩ := iht hs.2 hm'
        rw [List.takeWhile_cons, if_pos (show decide (a.1 < key) = true from decide_eq_true ha)]
        refine ⟨by simpa using h1, ?_⟩
        simpa [List.getD_cons_succ] using h2
      · rw [List.takeWhile_cons, if_neg (show ¬ decide (a.1 < key) = true from by simpa using ha)]
        have hkey : a.1 = key := by
          obtain ⟨e, he, hek⟩ := List.mem_map.1 hm
          rcases List.mem_cons.1 he with h | h
          · subst h; exact hek
          · exfalso
            have := hs.1 e h
            omega
        exact ⟨by simp, by simpa using hkey⟩

/-- A small well-formed two-level tree used as the concrete witness: root
internal page 2 over the leaves page 0 = `[(1,10),(2,20)]` and page 1 =
`[(5,50),(6,60)]`. -/
def c3Tree : TreeState :=
  { pages := updPage (updPage (updPage (fun _ => none) 0
      (.leaf { entries := [(1, 10), (2, 20)], maxSize := 4, nextPageId := 1 })) 1
      (.leaf { entries := [(5, 50), (6, 60)], maxSize := 4, nextPageId := -1 })) 2
      (.internal { entries := [(1, 0), (5, 1)], maxSize := 3 }),
    rootId := 2, nextPage := 3, leafMax := 4, internalMax := 3 }

end BPT

/-- **C3.** On a well-formed tree (`treeOK`), `Insert` of a key already
present in the tree returns `false` and leaves the tree state completely
unchanged — no page allocated, no split, no key or value modified —
regardless of whether the target leaf is full: the descent reaches a
sorted leaf containing the key, the duplicate check at the leaf fires, and
`Insert` returns before touching any page. -/
theorem bpt_insert_duplicate_unchanged (s : BPT.TreeState) (key v : Nat)
    (hok : BPT.treeOK s = true) (hmem : key ∈ BPT.treeKeys s) :
    BPT.insert s key v = (false, s) := by
  have hroot : ¬ s.rootId = -1 := by
    intro h
    rw [BPT.treeKeys, if_pos h] at hmem
    simp at hmem
  rw [BPT.treeKeys, if_neg hroot] at hmem
  have hok' : BPT.subtreeOK s (s.nextPage + 1) s.rootId.toNat none none = true := by
    rw [BPT.treeOK, Bool.or_eq_true] at hok
    rcases hok with h | h
    · exact absurd (of_decide_eq_true h) hroot
    · exact h
  obtain ⟨leafId, rest, lp, hpath, hpg, hsort, hkmem⟩ :=
    BPT.descent_finds_key s key (s.nextPage + 1) s.rootId.toNat none none [] hok' hmem
  obtain ⟨hposlt, hposkey⟩ := BPT.sorted_mem_leaf_pos key lp.entries hsort hkmem
  have hski : lp.searchKeyIndex key =
      (((lp.entries.takeWhile (fun e => decide (e.1 < key))).length : Nat) : Int) := by
    simp only [BPT.LeafPage.searchKeyIndex]
    rw [if_neg (Nat.ne_of_lt hposlt)]
  have hcond : lp.searchKeyIndex key ≠ -1 ∧
      (lp.entries.getD (lp.searchKeyIndex key).toNat (0, 0)).1 = key := by
    rw [hski]
    refine ⟨by omega, ?_⟩
    rw [Int.toNat_natCast]
    exact hposkey
  unfold BPT.insert
  rw [if_neg hroot]
  simp only [hpath, hpg]
  rw [if_pos hcond]

/-- Witness: on the concrete two-level tree `c3Tree`, inserting the present
key 5 again returns `false` and leaves the state unchanged. -/
theorem bpt_insert_duplicate_unchanged_witness :
    BPT.treeOK BPT.c3Tree = true ∧ 5 ∈ BPT.treeKeys BPT.c3Tree ∧
    BPT.insert BPT.c3Tree 5 99 = (false, BPT.c3Tree) :=
  ⟨by decide, by decide,
    bpt_insert_duplicate_unchanged BPT.c3Tree 5 99 (by decide) (by decide)⟩
